import Mathlib

/-!
# Verification of the markdown-processor incremental build pipeline

This file embeds the core of the repository (identity resolution,
filename validation, duplicate detection, the four-case diff engine and
the build orchestrator from `src/index.ts` / `src/utils.ts`) as
executable Lean definitions, and proves or refutes the frozen claims
about it.

Conventions of the embedding:
* JS strings are Lean `String`s, worked on through their `List Char` data.
* `Date` modification times are modelled as `Int` values supplied by an
  abstract `stat : String → Int` function (millisecond clock).
* Fallible JS code (functions that `throw`) returns `Option`.
* The orchestrator's filesystem and console effects are reified as a
  list of `Effect` values plus a final `BuildStatus`; a thrown / rejected
  promise is the `.crashed` status, an early `return` is one of the
  `aborted*` statuses.
-/

namespace MarkdownProcessor

/-! ## Identity grammar and filename parsing (`fm-type.js`, `path.parse`) -/

/-- One character of the identity grammar `[a-zA-Z0-9_-]`. -/
def isNameChar (c : Char) : Bool :=
  c.isAlpha || c.isDigit || c == '_' || c == '-'

/-- `PostNameRegex.test name` for `PostNameRegex = /^[a-zA-Z0-9_-]+$/`. -/
def postNameRegexTest (s : String) : Bool :=
  !s.data.isEmpty && s.data.all isNameChar

/-- The final path segment: characters after the last `'/'`, with
trailing slashes stripped first (Node `path.parse` basename behaviour). -/
def afterLastSlash (l : List Char) : List Char :=
  ((l.reverse.dropWhile (· == '/')).takeWhile (fun c => !(c == '/'))).reverse

/-- Strip the extension from a basename, Node-style: the extension starts
at the last `'.'` unless that dot is the first character (hidden files)
or the basename is `".."`. -/
def stripExtChars (b : List Char) : List Char :=
  if b = ['.', '.'] then b
  else
    let suf := b.reverse.takeWhile (fun c => !(c == '.'))
    if suf.length = b.length then b
    else if suf.length + 1 = b.length then b
    else b.take (b.length - suf.length - 1)

/-- `path.parse(filePath).name`: extension-stripped base filename. -/
def parseName (p : String) : String :=
  String.mk (stripExtChars (afterLastSlash p.data))

/-- All matches of `FromFileName = /\[([a-zA-Z0-9_-]+)\]/g` over a
character list, in order, each given by its capture group (the inner
text).  The scan mirrors the regex engine: at a `'['`, greedily take the
run of identity characters; the match succeeds when the run is nonempty
and followed by `']'`, and scanning resumes after the `']'`; otherwise
scanning resumes at the next character. -/
def bracketMatchesFuel : Nat → List Char → List String
  | 0, _ => []
  | _ + 1, [] => []
  | fuel + 1, c :: rest =>
    if c = '[' then
      if !(rest.takeWhile isNameChar).isEmpty &&
          ((rest.dropWhile isNameChar).head? == some ']') then
        String.mk (rest.takeWhile isNameChar) ::
          bracketMatchesFuel fuel (rest.dropWhile isNameChar).tail
      else bracketMatchesFuel fuel rest
    else bracketMatchesFuel fuel rest

/-- All matches of the scan, starting with fuel equal to the string
length; every recursive call drops at least one character while spending
exactly one unit of fuel, so the fuel never runs out before the input
does. -/
def bracketMatches (l : List Char) : List String :=
  bracketMatchesFuel l.length l

/-- The accumulator loop of `getNameOptional` over the iterator of
`name.matchAll(FromFileName)`: `for (mr of match) { if (result) return;
result = mr[1]; }`. -/
def fromFileNameGo : Option String → List String → Option String
  | r, [] => r
  | some _, _ :: _ => none
  | none, t :: rest => fromFileNameGo (some t) rest

/-- `getNameOptional` from `src/utils.ts` / `src/index.ts`. -/
def getNameOptional (filePath : String) : Option String :=
  let name := parseName filePath
  if postNameRegexTest name then some name
  else fromFileNameGo none (bracketMatches name.data)

/-! ## Validators (`checkFilenames`, `checkFilenamesRegex`, `checkDuplicates`) -/

/-- The reducer body of `checkFilenames`. -/
def checkFilenamesStep (bannedName : List String) (fails : List String)
    (p : String) : List String :=
  match getNameOptional p with
  | none => fails ++ [p]
  | some name =>
    if bannedName.contains name then fails ++ [p]
    else if !postNameRegexTest name then fails ++ [p]
    else fails

/-- `checkFilenames` from `src/utils.ts` (with the `bannedName` list). -/
def checkFilenames (files : List String) (bannedName : List String) : List String :=
  files.foldl (checkFilenamesStep bannedName) []

/-- The reducer body of `checkFilenamesRegex`. -/
def checkFilenamesRegexStep (fails : List String) (p : String) : List String :=
  match getNameOptional p with
  | none => fails ++ [p]
  | some name =>
    if !postNameRegexTest name then fails ++ [p]
    else fails

/-- `checkFilenamesRegex` from `src/index.ts` (no banned list). -/
def checkFilenamesRegex (files : List String) : List String :=
  files.foldl checkFilenamesRegexStep []

/-- `duplicateCheck.set` / `check.push` of `checkDuplicates`: group a
path under its name, preserving first-insertion order of keys. -/
def addToDup (m : List (String × List String)) (n p : String) :
    List (String × List String) :=
  if m.any (fun e => e.1 == n) then
    m.map (fun e => if e.1 == n then (e.1, e.2 ++ [p]) else e)
  else m ++ [(n, [p])]

/-- The `files.forEach` grouping loop of `checkDuplicates`; `none` models
the exception thrown by `getName` on an unresolvable path. -/
def dupBuild : List String → List (String × List String) →
    Option (List (String × List String))
  | [], m => some m
  | p :: rest, m =>
    match getNameOptional p with
    | none => none
    | some n => dupBuild rest (addToDup m n p)

/-- `checkDuplicates` from `src/index.ts`: outer `none` is a thrown
`getName` error; `some none` is success (no duplicates); `some (some
fails)` reports the duplicated groups. -/
def checkDuplicates (files : List String) :
    Option (Option (List (String × List String))) :=
  (dupBuild files []).map (fun m =>
    let fails := m.filter (fun e => e.2.length ≠ 1)
    if fails.isEmpty then none else some fails)

/-! ## Diff engine (`diff` from `src/index.ts` / `src/utils.ts`) -/

/-- One entry of the `processedMap` / `originalMap`: identity, path and
`fs.stat(path).mtime`. -/
structure Stat where
  name : String
  path : String
  mtime : Int
deriving DecidableEq, Repr

/-- An entry of `case1` / `case2`. -/
structure DiffEntry where
  name : String
  processedFile : String
  originalFile : String
deriving DecidableEq, Repr

/-- An entry of `case3` (`originalFile` omitted). -/
structure Case3Entry where
  name : String
  processedFile : String
deriving DecidableEq, Repr

/-- An entry of `case4` (`processedFile` omitted). -/
structure Case4Entry where
  name : String
  originalFile : String
deriving DecidableEq, Repr

/-- The four-case partition returned by `diff`. -/
structure DiffResult where
  case1 : List DiffEntry
  case2 : List DiffEntry
  case3 : List Case3Entry
  case4 : List Case4Entry
deriving DecidableEq, Repr

/-- `Map.set` on an insertion-ordered map keyed by `name`: replace in
place when the key exists, else append. -/
def mapSet (m : List Stat) (s : Stat) : List Stat :=
  if m.any (fun e => e.name == s.name) then
    m.map (fun e => if e.name == s.name then s else e)
  else m ++ [s]

/-- `Map.get`. -/
def mapGet (m : List Stat) (n : String) : Option Stat :=
  m.find? (fun e => e.name == n)

/-- `Map.delete` (keys are unique, so filtering is exact). -/
def mapDelete (m : List Stat) (n : String) : List Stat :=
  m.filter (fun e => !(e.name == n))

/-- The map-building fan-out of `diff` (`asyncFor` + `Map.set`), in
input order; `none` models the `getName` throw on an unresolvable path. -/
def buildStatMap (stat : String → Int) : List String → List Stat → Option (List Stat)
  | [], m => some m
  | p :: rest, m =>
    match getNameOptional p with
    | none => none
    | some n => buildStatMap stat rest (mapSet m ⟨n, p, stat p⟩)

/-- The classification loop of `diff`: walk the processed map; a name
found in the original map goes to case 1 (strictly newer) or case 2 and
is deleted from both maps; leftovers of the processed map are case 3 and
leftovers of the original map are case 4. -/
def diffLoop : List Stat → List Stat → DiffResult
  | [], om => ⟨[], [], [], om.map (fun o => ⟨o.name, o.path⟩)⟩
  | p :: rest, om =>
    match mapGet om p.name with
    | some o =>
      if p.mtime > o.mtime then
        { diffLoop rest (mapDelete om p.name) with
            case1 := ⟨p.name, p.path, o.path⟩ ::
              (diffLoop rest (mapDelete om p.name)).case1 }
      else
        { diffLoop rest (mapDelete om p.name) with
            case2 := ⟨p.name, p.path, o.path⟩ ::
              (diffLoop rest (mapDelete om p.name)).case2 }
    | none =>
      { diffLoop rest om with
          case3 := ⟨p.name, p.path⟩ :: (diffLoop rest om).case3 }

/-- `diff(processeds, originals)` from `src/index.ts`; `none` models the
rejected promise when some path's name does not resolve. -/
def diff (stat : String → Int) (processeds originals : List String) :
    Option DiffResult := do
  let pm ← buildStatMap stat processeds []
  let om ← buildStatMap stat originals []
  pure (diffLoop pm om)

/-- How many of the four cases mention identity `n`, with multiplicity. -/
def caseCount (r : DiffResult) (n : String) : Nat :=
  r.case1.countP (fun e => e.name == n) + r.case2.countP (fun e => e.name == n) +
    r.case3.countP (fun e => e.name == n) + r.case4.countP (fun e => e.name == n)

/-- The key list of a map. -/
def statNames (m : List Stat) : List String :=
  m.map (fun e => e.name)

/-- The map entry a resolvable path contributes (name, path, mtime). -/
def mkStat (stat : String → Int) (p : String) : Stat :=
  ⟨(getNameOptional p).getD "", p, stat p⟩

/-! ## Content records and the aggregate index
(`ContentType`, `generatePostsjson`, the `posts.sort` comparator) -/

/-- A `ContentType` record: the per-post JSON written by `processMd`.
`writtenDate` is the normalized date string inside `metadata`; the other
metadata fields are opaque here (`meta`); `unlisted : Bool` models the
`true | undefined` flag (`false` for `undefined`). -/
structure Content where
  name : String
  writtenDate : String
  meta : String
  content : String
  unlisted : Bool
deriving DecidableEq, Repr

/-- A posts-list entry: `lodash.omit(cur, ['content'])`. -/
structure PostEntry where
  name : String
  writtenDate : String
  meta : String
  unlisted : Bool
deriving DecidableEq, Repr

/-- `lodash.omit(cur, ['content'])`. -/
def omitContent (c : Content) : PostEntry :=
  ⟨c.name, c.writtenDate, c.meta, c.unlisted⟩

/-- `generatePostsjson` from `src/index.ts`: drop `unlisted` records and
strip the `content` field, by a `reduce` with push. -/
def generatePostsjson (result : List Content) : List PostEntry :=
  result.foldl (fun prev cur =>
    if cur.unlisted then prev else prev ++ [omitContent cur]) []

/-- The `posts.sort` comparator phase: JS `Array.prototype.sort` is
stable and the comparator orders by `new Date(writtenDate)` descending;
`parseDate` abstracts `new Date(...).getTime()`. -/
def postsSort (parseDate : String → Int) (posts : List PostEntry) : List PostEntry :=
  posts.mergeSort (fun a b => parseDate b.writtenDate ≤ parseDate a.writtenDate)

/-! ## Build orchestrator (`newMarkdownProcessor` from `src/index.ts`) -/

/-- An observable effect of the orchestrator. -/
inductive Effect
  | delete : String → Effect
  | render : String → Effect
  | writePost : String → Content → Effect
  | writeIndex : String → List PostEntry → Effect
deriving DecidableEq, Repr

/-- How a run ends: `ok` on success, an `aborted*` status for each early
`return`, `crashed` for an uncaught exception / rejected promise. -/
inductive BuildStatus
  | ok
  | abortedNameCheck
  | abortedDup
  | abortedRender
  | crashed
deriving DecidableEq, Repr

/-- `path.join(outDir, n + '.json')`. -/
def outPath (outDir n : String) : String :=
  outDir ++ "/" ++ n ++ ".json"

/-- The out-directory glob result with the aggregate index file removed:
`files.filter(f => path.parse(f).name !== postsName)`. -/
def filteredOut (postsName : String) (outDirFiles : List String) : List String :=
  outDirFiles.filter (fun f => parseName f ≠ postsName)

/-- `needToProcess`: Case 2 ∪ Case 4 ∪ (Case 1 when forced), projected
to `originalFile`. -/
def renderSet (force : Bool) (res : DiffResult) : List String :=
  res.case2.map (fun e => e.originalFile) ++ res.case4.map (fun e => e.originalFile) ++
    (if force then res.case1.map (fun e => e.originalFile) else [])

/-- `result.push(processed)` for one settled render outcome: pushed when
the render succeeded with a non-`null` record. -/
def renderPush (acc : List Content) (o : Except String (Option Content)) :
    List Content :=
  match o with
  | .ok (some c) => acc ++ [c]
  | _ => acc

/-- The `result` array after the render fan-out: successful non-`null`
renders, in dispatch order. -/
def renderResults (render : String → Except String (Option Content))
    (paths : List String) : List Content :=
  (paths.map render).foldl renderPush []

/-- Whether any render in the fan-out rejected (`errored` flag). -/
def renderErrored (render : String → Except String (Option Content))
    (paths : List String) : Bool :=
  (paths.map render).any (fun o =>
    match o with
    | .error _ => true
    | _ => false)

/-- The reuse fan-out: for each kept Case-1 entry, read its existing
JSON output and push `generatePostsjson([JSON.parse(content)])`. -/
def reuseFold (readContent : String → Content) (entries : List DiffEntry) :
    List PostEntry :=
  entries.foldl (fun acc e =>
    acc ++ generatePostsjson [readContent e.processedFile]) []

/-- `newMarkdownProcessor` from `src/index.ts`, as a pure function from
the world (directory listings, `stat` mtimes, the external renderer, the
JSON reader for reused outputs, deletion success, date parsing) to the
performed effects and the final status. -/
def newMarkdownProcessor (force : Bool) (postsName : String)
    (stat : String → Int)
    (render : String → Except String (Option Content))
    (readContent : String → Content)
    (rmOk : String → Bool)
    (parseDate : String → Int)
    (inDirFiles outDirFiles : List String)
    (outDir : String) : List Effect × BuildStatus :=
  if checkFilenamesRegex inDirFiles ≠ [] then ([], .abortedNameCheck)
  else
    match checkDuplicates inDirFiles with
    | none => ([], .crashed)
    | some (some _) => ([], .abortedDup)
    | some none =>
      match diff stat (filteredOut postsName outDirFiles) inDirFiles with
      | none => ([], .crashed)
      | some res =>
        let delPaths := res.case3.map (fun v => v.processedFile)
        let delEffects := (delPaths.filter rmOk).map Effect.delete
        if delPaths.any (fun p => !rmOk p) then (delEffects, .crashed)
        else
          let needToProcess := renderSet force res
          let renderEffects := needToProcess.map Effect.render
          if renderErrored render needToProcess then
            (delEffects ++ renderEffects, .abortedRender)
          else
            let result := renderResults render needToProcess
            let writes := result.map (fun c =>
              Effect.writePost (outPath outDir c.name) c)
            let reused := if force then [] else res.case1
            let posts := generatePostsjson result ++ reuseFold readContent reused
            let sorted := postsSort parseDate posts
            (delEffects ++ renderEffects ++ writes ++
              [Effect.writeIndex (outPath outDir postsName) sorted], .ok)

/-! # Helper lemmas: identity resolution -/

theorem fromFileNameGo_none (ms : List String) :
    fromFileNameGo none ms = match ms with
      | [t] => some t
      | _ => none := by
  match ms with
  | [] => rfl
  | [t] => rfl
  | _ :: _ :: _ => rfl

theorem bracketMatchesFuel_tokens (fuel : Nat) :
    ∀ (l : List Char), ∀ t ∈ bracketMatchesFuel fuel l,
      t.data ≠ [] ∧ t.data.all isNameChar = true := by
  induction fuel with
  | zero =>
    intro l t ht
    simp [bracketMatchesFuel] at ht
  | succ fuel ih =>
    intro l t ht
    match l with
    | [] => simp [bracketMatchesFuel] at ht
    | c :: rest =>
      rw [bracketMatchesFuel] at ht
      by_cases hc : c = '['
      · rw [if_pos hc] at ht
        by_cases hcond : (!(rest.takeWhile isNameChar).isEmpty &&
            ((rest.dropWhile isNameChar).head? == some ']')) = true
        · rw [if_pos hcond] at ht
          rcases List.mem_cons.mp ht with rfl | ht'
          · rw [Bool.and_eq_true] at hcond
            refine ⟨?_, ?_⟩
            · intro habs
              have hrun : rest.takeWhile isNameChar = [] := habs
              rw [show (rest.takeWhile isNameChar).isEmpty = true by
                rw [List.isEmpty_iff]; exact hrun] at hcond
              simp at hcond
            · have hall : ∀ x ∈ rest.takeWhile isNameChar, isNameChar x = true :=
                fun x hx => List.mem_takeWhile_imp hx
              exact List.all_eq_true.mpr hall
          · exact ih _ t ht'
        · rw [if_neg hcond] at ht
          exact ih _ t ht
      · rw [if_neg hc] at ht
        exact ih _ t ht

theorem bracketMatches_tokens (l : List Char) :
    ∀ t ∈ bracketMatches l, t.data ≠ [] ∧ t.data.all isNameChar = true :=
  bracketMatchesFuel_tokens l.length l

theorem getNameOptional_grammar {p n : String} (h : getNameOptional p = some n) :
    postNameRegexTest n = true := by
  unfold getNameOptional at h
  by_cases hg : postNameRegexTest (parseName p) = true
  · rw [if_pos hg] at h
    cases h
    exact hg
  · rw [if_neg hg, fromFileNameGo_none] at h
    rcases hb : bracketMatches (parseName p).data with _ | ⟨t, ts⟩
    · rw [hb] at h
      simp at h
    · rcases ts with _ | ⟨t2, ts'⟩
      · rw [hb] at h
        have ht : t = n := by simpa using h
        subst ht
        obtain ⟨h1, h2⟩ :=
          bracketMatches_tokens (parseName p).data t (by rw [hb]; exact List.mem_singleton.mpr rfl)
        unfold postNameRegexTest
        simp [List.isEmpty_iff, h1, h2]
      · rw [hb] at h
        simp at h

theorem checkFilenames_foldl (banned : List String) (files : List String)
    (acc : List String) :
    files.foldl (checkFilenamesStep banned) acc
    = acc ++ files.filter (fun p =>
        match getNameOptional p with
        | none => true
        | some n => banned.contains n) := by
  induction files generalizing acc with
  | nil => simp
  | cons p rest ih =>
    simp only [List.foldl_cons, List.filter_cons]
    rcases hn : getNameOptional p with _ | n
    · have hstep : checkFilenamesStep banned acc p = acc ++ [p] := by
        simp [checkFilenamesStep, hn]
      rw [hstep, ih]
      simp [hn]
    · have hg := getNameOptional_grammar hn
      by_cases hb : n ∈ banned
      · have hstep : checkFilenamesStep banned acc p = acc ++ [p] := by
          simp [checkFilenamesStep, hn, hb]
        rw [hstep, ih]
        simp [hn, hb]
      · have hstep : checkFilenamesStep banned acc p = acc := by
          simp [checkFilenamesStep, hn, hb, hg]
        rw [hstep, ih]
        simp [hn, hb]

theorem checkFilenamesRegex_foldl (files : List String) (acc : List String) :
    files.foldl checkFilenamesRegexStep acc
      = acc ++ files.filter (fun p => (getNameOptional p).isNone) := by
  induction files generalizing acc with
  | nil => simp
  | cons p rest ih =>
    simp only [List.foldl_cons, List.filter_cons]
    rcases hn : getNameOptional p with _ | n
    · have hstep : checkFilenamesRegexStep acc p = acc ++ [p] := by
        simp [checkFilenamesRegexStep, hn]
      rw [hstep, ih]
      simp [hn]
    · have hg := getNameOptional_grammar hn
      have hstep : checkFilenamesRegexStep acc p = acc := by
        simp [checkFilenamesRegexStep, hn, hg]
      rw [hstep, ih]
      simp [hn]

theorem checkFilenamesRegex_eq (files : List String) :
    checkFilenamesRegex files
      = files.filter (fun p => (getNameOptional p).isNone) := by
  unfold checkFilenamesRegex
  simpa using checkFilenamesRegex_foldl files []

/-! # C7 and C10 -/

/-- **C7.** Identity resolution takes the extension-stripped base
filename (`parseName`); if it matches the identity grammar exactly it is
returned; otherwise the inner text of the unique bracket-delimited token
is returned when exactly one such token occurs in the base, and no
identity results when zero or more than one occurs. -/
theorem c7_identity_resolution (p : String) :
    getNameOptional p =
      (if postNameRegexTest (parseName p) then some (parseName p)
       else match bracketMatches (parseName p).data with
         | [t] => some t
         | _ => none) := by
  unfold getNameOptional
  by_cases h : postNameRegexTest (parseName p) = true
  · simp [h]
  · simp only [Bool.not_eq_true] at h
    simp [h, fromFileNameGo_none]

/-- **C10.** Every identity produced by a successful resolution matches
`PostNameRegex`, so the strict grammar re-check in `checkFilenames` (its
third branch) is unreachable, and `checkFilenames` flags exactly the
paths whose resolution fails or whose resolved identity is banned. -/
theorem c10_resolution_implies_grammar :
    (∀ p n, getNameOptional p = some n → postNameRegexTest n = true) ∧
    (∀ files banned, checkFilenames files banned
        = files.filter (fun p =>
            match getNameOptional p with
            | none => true
            | some n => banned.contains n)) := by
  constructor
  · exact fun p n h => getNameOptional_grammar h
  · intro files banned
    unfold checkFilenames
    rw [checkFilenames_foldl]
    simp

/-! # Helper lemmas: the diff engine -/

theorem mem_statNames {m : List Stat} {n : String} :
    n ∈ statNames m ↔ ∃ e ∈ m, e.name = n := by
  simp [statNames, List.mem_map]

theorem mapGet_eq_some {m : List Stat} {n : String} {o : Stat}
    (h : mapGet m n = some o) : o.name = n ∧ o ∈ m := by
  unfold mapGet at h
  refine ⟨by simpa using List.find?_some h, List.mem_of_find?_eq_some h⟩

theorem mapGet_eq_none {m : List Stat} {n : String}
    (h : mapGet m n = none) : n ∉ statNames m := by
  unfold mapGet at h
  rw [List.find?_eq_none] at h
  intro hmem
  obtain ⟨e, he, hename⟩ := mem_statNames.mp hmem
  exact absurd (by simp [hename] : (e.name == n) = true) (h e he)

theorem mapGet_of_mem_nodup {m : List Stat} (hm : (statNames m).Nodup)
    {o : Stat} (ho : o ∈ m) : mapGet m o.name = some o := by
  induction m with
  | nil => cases ho
  | cons e rest ih =>
    have hm' : e.name ∉ statNames rest ∧ (statNames rest).Nodup :=
      List.nodup_cons.mp hm
    rcases List.mem_cons.mp ho with rfl | ho'
    · unfold mapGet
      simp [List.find?_cons_of_pos]
    · have hne : (e.name == o.name) = false := by
        simp only [beq_eq_false_iff_ne, ne_eq]
        intro heq
        exact hm'.1 (heq ▸ mem_statNames.mpr ⟨o, ho', rfl⟩)
      unfold mapGet
      rw [List.find?_cons_of_neg _ (by simp [hne])]
      exact ih hm'.2 ho'

theorem mapDelete_statNames_nodup {m : List Stat} {n : String}
    (h : (statNames m).Nodup) : (statNames (mapDelete m n)).Nodup :=
  h.sublist ((List.filter_sublist _).map _)

theorem mem_statNames_mapDelete {m : List Stat} {n x : String} :
    x ∈ statNames (mapDelete m n) ↔ x ∈ statNames m ∧ x ≠ n := by
  unfold mapDelete statNames
  simp only [List.mem_map, List.mem_filter, Bool.not_eq_eq_eq_not, Bool.not_true,
    beq_eq_false_iff_ne, ne_eq]
  constructor
  · rintro ⟨e, ⟨hem, hne⟩, rfl⟩
    exact ⟨⟨e, hem, rfl⟩, hne⟩
  · rintro ⟨⟨e, hem, rfl⟩, hne⟩
    exact ⟨e, ⟨hem, hne⟩, rfl⟩

theorem mem_mapDelete_iff {m : List Stat} {n : String} {o : Stat} :
    o ∈ mapDelete m n ↔ o ∈ m ∧ o.name ≠ n := by
  simp [mapDelete, List.mem_filter]

theorem countP_name_nodup {m : List Stat} (h : (statNames m).Nodup) (x : String) :
    m.countP (fun e => e.name == x) = if x ∈ statNames m then 1 else 0 := by
  induction m with
  | nil => simp [statNames]
  | cons e rest ih =>
    have h' : e.name ∉ statNames rest ∧ (statNames rest).Nodup :=
      List.nodup_cons.mp h
    rw [List.countP_cons, ih h'.2]
    by_cases hx : x = e.name
    · subst hx
      rw [if_neg h'.1, if_pos (by simp [statNames])]
      simp [statNames]
    · have hmem : x ∈ statNames (e :: rest) ↔ x ∈ statNames rest := by
        simp [statNames, List.mem_cons, hx]
      have hb : (e.name == x) = false := by
        simp [Ne.symm hx]
      rw [hb]
      by_cases hx2 : x ∈ statNames rest
      · rw [if_pos hx2, if_pos (hmem.mpr hx2)]
        simp
      · rw [if_neg hx2, if_neg (fun hc => hx2 (hmem.mp hc))]
        simp

theorem caseCount_cons1 (r : DiffResult) (e : DiffEntry) (n : String) :
    caseCount { r with case1 := e :: r.case1 } n
      = (if e.name = n then 1 else 0) + caseCount r n := by
  simp only [caseCount, List.countP_cons]
  by_cases h : e.name = n
  · simp [h]; omega
  · simp [h]

theorem caseCount_cons2 (r : DiffResult) (e : DiffEntry) (n : String) :
    caseCount { r with case2 := e :: r.case2 } n
      = (if e.name = n then 1 else 0) + caseCount r n := by
  simp only [caseCount, List.countP_cons]
  by_cases h : e.name = n
  · simp [h]; omega
  · simp [h]

theorem caseCount_cons3 (r : DiffResult) (e : Case3Entry) (n : String) :
    caseCount { r with case3 := e :: r.case3 } n
      = (if e.name = n then 1 else 0) + caseCount r n := by
  simp only [caseCount, List.countP_cons]
  by_cases h : e.name = n
  · simp [h]; omega
  · simp [h]

theorem diffLoop_caseCount (ps : List Stat) :
    ∀ (om : List Stat), (statNames ps).Nodup → (statNames om).Nodup →
      ∀ (n : String), caseCount (diffLoop ps om) n
        = if n ∈ statNames ps ∨ n ∈ statNames om then 1 else 0 := by
  induction ps with
  | nil =>
    intro om _ hom n
    rw [diffLoop]
    unfold caseCount
    simp only [List.countP_nil, List.countP_map]
    have hcomp : ((fun (e : Case4Entry) => e.name == n) ∘
        (fun (o : Stat) => (⟨o.name, o.path⟩ : Case4Entry)))
        = (fun (o : Stat) => o.name == n) := rfl
    rw [hcomp, countP_name_nodup hom]
    simp [statNames]
  | cons p rest ih =>
    intro om hps hom n
    have hps' : p.name ∉ statNames rest ∧ (statNames rest).Nodup :=
      List.nodup_cons.mp hps
    rw [diffLoop]
    rcases hg : mapGet om p.name with _ | o
    · have hnotom := mapGet_eq_none hg
      rw [caseCount_cons3, ih om hps'.2 hom n]
      by_cases hn : p.name = n
      · subst hn
        have h1 : ¬(p.name ∈ statNames rest ∨ p.name ∈ statNames om) := by
          rintro (h | h)
          · exact hps'.1 h
          · exact hnotom h
        rw [if_neg h1, if_pos (Or.inl (by simp [statNames]))]
        simp
      · have h3 : n ∈ statNames (p :: rest) ↔ n ∈ statNames rest := by
          constructor
          · intro h
            rcases (by simpa [statNames] using h : n = p.name ∨ n ∈ statNames rest)
              with h' | h'
            · exact absurd h'.symm hn
            · exact h'
          · intro h
            exact List.mem_cons_of_mem _ h
        have hfst : ((⟨p.name, p.path⟩ : Case3Entry).name = n) ↔ False := by
          simp [hn]
        rw [if_neg (by simp [hn] : ¬((⟨p.name, p.path⟩ : Case3Entry).name = n))]
        have h2 : (n ∈ statNames rest ∨ n ∈ statNames om)
            ↔ (n ∈ statNames (p :: rest) ∨ n ∈ statNames om) := by
          rw [h3]
        simp only [h2]
        simp
    · obtain ⟨honame, homem⟩ := mapGet_eq_some hg
      have hpm : p.name ∈ statNames om := mem_statNames.mpr ⟨o, homem, honame⟩
      have hom' := mapDelete_statNames_nodup (n := p.name) hom
      have harith : (if p.name = n then 1 else 0) +
          (if n ∈ statNames rest ∨ n ∈ statNames (mapDelete om p.name) then 1 else 0)
          = if n ∈ statNames (p :: rest) ∨ n ∈ statNames om then 1 else 0 := by
        by_cases hn : p.name = n
        · subst hn
          have h1 : ¬(p.name ∈ statNames rest ∨
              p.name ∈ statNames (mapDelete om p.name)) := by
            rintro (h | h)
            · exact hps'.1 h
            · exact (mem_statNames_mapDelete.mp h).2 rfl
          rw [if_pos rfl, if_neg h1, if_pos (Or.inl (by simp [statNames]))]
        · have h3 : n ∈ statNames (p :: rest) ↔ n ∈ statNames rest := by
            constructor
            · intro h
              rcases (by simpa [statNames] using h : n = p.name ∨ n ∈ statNames rest)
                with h' | h'
              · exact absurd h'.symm hn
              · exact h'
            · intro h
              exact List.mem_cons_of_mem _ h
          have h4 : n ∈ statNames (mapDelete om p.name) ↔ n ∈ statNames om := by
            rw [mem_statNames_mapDelete]
            exact ⟨fun h => h.1, fun h => ⟨h, fun hc => hn hc.symm⟩⟩
          rw [if_neg hn]
          simp only [h3, h4]
          simp
      dsimp only
      by_cases hmt : p.mtime > o.mtime
      · rw [if_pos hmt, caseCount_cons1,
          ih (mapDelete om p.name) hps'.2 hom' n]
        exact harith
      · rw [if_neg hmt, caseCount_cons2,
          ih (mapDelete om p.name) hps'.2 hom' n]
        exact harith

theorem filterMap_eq_map_of_isSome {ps : List String}
    (h : ∀ p ∈ ps, (getNameOptional p).isSome) :
    ps.filterMap getNameOptional
      = ps.map (fun p => (getNameOptional p).getD "") := by
  induction ps with
  | nil => rfl
  | cons p rest ih =>
    rcases hn : getNameOptional p with _ | n
    · exact absurd (h p (List.mem_cons_self _ _)) (by simp [hn])
    · rw [List.filterMap_cons, List.map_cons, hn]
      rw [ih (fun q hq => h q (List.mem_cons_of_mem _ hq))]
      simp [hn]

theorem statNames_map_mkStat (stat : String → Int) (ps : List String) :
    statNames (ps.map (mkStat stat))
      = ps.map (fun p => (getNameOptional p).getD "") := by
  unfold statNames
  rw [List.map_map]
  rfl

theorem statNames_append (m m' : List Stat) :
    statNames (m ++ m') = statNames m ++ statNames m' := by
  simp [statNames]

theorem buildStatMap_eq_map (stat : String → Int) (ps : List String) :
    ∀ (m : List Stat),
    (∀ p ∈ ps, (getNameOptional p).isSome) →
    (ps.filterMap getNameOptional).Nodup →
    (∀ p ∈ ps, ∀ n, getNameOptional p = some n → n ∉ statNames m) →
    buildStatMap stat ps m = some (m ++ ps.map (mkStat stat)) := by
  induction ps with
  | nil =>
    intro m _ _ _
    simp [buildStatMap]
  | cons p rest ih =>
    intro m hres hnd hdisj
    rcases hn : getNameOptional p with _ | n
    · exact absurd (hres p (List.mem_cons_self _ _)) (by simp [hn])
    · rw [buildStatMap, hn]
      dsimp only
      have hset : mapSet m ⟨n, p, stat p⟩ = m ++ [⟨n, p, stat p⟩] := by
        unfold mapSet
        rw [if_neg]
        intro hany
        rw [List.any_eq_true] at hany
        obtain ⟨e, hem, he⟩ := hany
        exact hdisj p (List.mem_cons_self _ _) n hn
          (mem_statNames.mpr ⟨e, hem, by simpa using he⟩)
      rw [hset]
      simp only [List.filterMap_cons, hn] at hnd
      have hnd' := List.nodup_cons.mp hnd
      have hres' : ∀ q ∈ rest, (getNameOptional q).isSome :=
        fun q hq => hres q (List.mem_cons_of_mem _ hq)
      have hdisj' : ∀ q ∈ rest, ∀ nq, getNameOptional q = some nq →
          nq ∉ statNames (m ++ [⟨n, p, stat p⟩]) := by
        intro q hq nq hnq hmem
        rw [statNames_append] at hmem
        rcases List.mem_append.mp hmem with hm | hm
        · exact hdisj q (List.mem_cons_of_mem _ hq) nq hnq hm
        · have : nq = n := by simpa [statNames] using hm
          subst this
          exact hnd'.1 (List.mem_filterMap.mpr ⟨q, hq, hnq⟩)
      refine (ih _ hres' hnd'.2 hdisj').trans ?_
      simp [mkStat, hn]

theorem diff_eq_diffLoop (stat : String → Int) (B A : List String)
    (hB : ∀ p ∈ B, (getNameOptional p).isSome)
    (hA : ∀ p ∈ A, (getNameOptional p).isSome)
    (hnB : (B.filterMap getNameOptional).Nodup)
    (hnA : (A.filterMap getNameOptional).Nodup) :
    diff stat B A
      = some (diffLoop (B.map (mkStat stat)) (A.map (mkStat stat))) := by
  unfold diff
  rw [buildStatMap_eq_map stat B [] hB hnB (by intro p hp n hn; simp [statNames]),
      buildStatMap_eq_map stat A [] hA hnA (by intro p hp n hn; simp [statNames])]
  simp

theorem statNames_nodup_of_filterMap (stat : String → Int) {ps : List String}
    (hres : ∀ p ∈ ps, (getNameOptional p).isSome)
    (hnd : (ps.filterMap getNameOptional).Nodup) :
    (statNames (ps.map (mkStat stat))).Nodup := by
  rw [statNames_map_mkStat, ← filterMap_eq_map_of_isSome hres]
  exact hnd

/-! # C1: the diff partitions the identities -/

/-- **C1.** For input path lists whose identities all resolve and are
duplicate-free on each side, `diff` succeeds and every identity of
either side lands in exactly one of the four cases (with multiplicity
one), while an identity of neither side appears in none: the four cases
are pairwise disjoint and their union is exactly the union of the two
identity sets. -/
theorem c1_diff_partitions (stat : String → Int)
    (processeds originals : List String)
    (hp : ∀ p ∈ processeds, (getNameOptional p).isSome)
    (ho : ∀ p ∈ originals, (getNameOptional p).isSome)
    (hnp : (processeds.filterMap getNameOptional).Nodup)
    (hno : (originals.filterMap getNameOptional).Nodup) :
    ∃ r, diff stat processeds originals = some r ∧
      ∀ n, caseCount r n =
        if n ∈ processeds.filterMap getNameOptional
            ∨ n ∈ originals.filterMap getNameOptional then 1 else 0 := by
  refine ⟨_, diff_eq_diffLoop stat processeds originals hp ho hnp hno, ?_⟩
  intro n
  have h1 : statNames (processeds.map (mkStat stat))
      = processeds.filterMap getNameOptional := by
    rw [statNames_map_mkStat, ← filterMap_eq_map_of_isSome hp]
  have h2 : statNames (originals.map (mkStat stat))
      = originals.filterMap getNameOptional := by
    rw [statNames_map_mkStat, ← filterMap_eq_map_of_isSome ho]
  rw [diffLoop_caseCount _ _ (statNames_nodup_of_filterMap stat hp hnp)
    (statNames_nodup_of_filterMap stat ho hno) n, h1, h2]

/-- Witness for C1 at a concrete input. -/
theorem c1_diff_partitions_witness :
    ∃ r, diff (fun _ => 0) ["out/a.json"] ["in/b.md"] = some r ∧
      ∀ n, caseCount r n =
        if n ∈ ["out/a.json"].filterMap getNameOptional
            ∨ n ∈ ["in/b.md"].filterMap getNameOptional then 1 else 0 :=
  c1_diff_partitions (fun _ => 0) ["out/a.json"] ["in/b.md"]
    (by decide) (by decide) (by decide) (by decide)

theorem diffLoop_mem_case1 (ps : List Stat) :
    ∀ (om : List Stat), (statNames ps).Nodup → (statNames om).Nodup →
    ∀ p o, p ∈ ps → o ∈ om → o.name = p.name → p.mtime > o.mtime →
      (⟨p.name, p.path, o.path⟩ : DiffEntry) ∈ (diffLoop ps om).case1 := by
  induction ps with
  | nil =>
    intro om _ _ p o hp
    cases hp
  | cons q rest ih =>
    intro om hps hom p o hp ho hname hmt
    have hps' : q.name ∉ statNames rest ∧ (statNames rest).Nodup :=
      List.nodup_cons.mp hps
    rw [diffLoop]
    rcases List.mem_cons.mp hp with rfl | hp'
    · have hget : mapGet om p.name = some o := by
        rw [← hname]
        exact mapGet_of_mem_nodup hom ho
      rw [hget]
      dsimp only
      rw [if_pos hmt]
      exact List.mem_cons_self _ _
    · have hqp : q.name ≠ p.name := by
        intro h
        exact hps'.1 (h ▸ mem_statNames.mpr ⟨p, hp', rfl⟩)
      rcases hg : mapGet om q.name with _ | o2
      · dsimp only
        exact ih om hps'.2 hom p o hp' ho hname hmt
      · have ho' : o ∈ mapDelete om q.name :=
          mem_mapDelete_iff.mpr ⟨ho, by rw [hname]; exact fun h => hqp h.symm⟩
        have hom' := mapDelete_statNames_nodup (n := q.name) hom
        dsimp only
        by_cases hmt2 : q.mtime > o2.mtime
        · rw [if_pos hmt2]
          exact List.mem_cons_of_mem _ (ih _ hps'.2 hom' p o hp' ho' hname hmt)
        · rw [if_neg hmt2]
          exact ih _ hps'.2 hom' p o hp' ho' hname hmt

theorem diffLoop_mem_case2 (ps : List Stat) :
    ∀ (om : List Stat), (statNames ps).Nodup → (statNames om).Nodup →
    ∀ p o, p ∈ ps → o ∈ om → o.name = p.name → ¬(p.mtime > o.mtime) →
      (⟨p.name, p.path, o.path⟩ : DiffEntry) ∈ (diffLoop ps om).case2 := by
  induction ps with
  | nil =>
    intro om _ _ p o hp
    cases hp
  | cons q rest ih =>
    intro om hps hom p o hp ho hname hmt
    have hps' : q.name ∉ statNames rest ∧ (statNames rest).Nodup :=
      List.nodup_cons.mp hps
    rw [diffLoop]
    rcases List.mem_cons.mp hp with rfl | hp'
    · have hget : mapGet om p.name = some o := by
        rw [← hname]
        exact mapGet_of_mem_nodup hom ho
      rw [hget]
      dsimp only
      rw [if_neg hmt]
      exact List.mem_cons_self _ _
    · have hqp : q.name ≠ p.name := by
        intro h
        exact hps'.1 (h ▸ mem_statNames.mpr ⟨p, hp', rfl⟩)
      rcases hg : mapGet om q.name with _ | o2
      · dsimp only
        exact ih om hps'.2 hom p o hp' ho hname hmt
      · have ho' : o ∈ mapDelete om q.name :=
          mem_mapDelete_iff.mpr ⟨ho, by rw [hname]; exact fun h => hqp h.symm⟩
        have hom' := mapDelete_statNames_nodup (n := q.name) hom
        dsimp only
        by_cases hmt2 : q.mtime > o2.mtime
        · rw [if_pos hmt2]
          exact ih _ hps'.2 hom' p o hp' ho' hname hmt
        · rw [if_neg hmt2]
          exact List.mem_cons_of_mem _ (ih _ hps'.2 hom' p o hp' ho' hname hmt)

/-! # C2: equal mtimes -/

/-- **C2 counterexample.** An output and a source with the same identity
`"a"` and *equal* mtimes: `diff` classifies the pair as Case 2 (rebuild),
with Case 1 empty — not Case 1 as the claim states. -/
theorem c2_equal_mtime_counterexample :
    diff (fun _ => 0) ["out/a.json"] ["in/a.md"]
      = some ⟨[], [⟨"a", "out/a.json", "in/a.md"⟩], [], []⟩ := by
  rfl

/-- **C2 (amended).** An identity present on both sides classifies as
Case 1 exactly when the output mtime is *strictly* greater than the
source mtime (`processedStat.mtime > originalStat.mtime`); when the
output mtime is less than or equal — including equal — it classifies as
Case 2. -/
theorem c2_mtime_classification (stat : String → Int)
    (processeds originals : List String)
    (hp : ∀ p ∈ processeds, (getNameOptional p).isSome)
    (ho : ∀ p ∈ originals, (getNameOptional p).isSome)
    (hnp : (processeds.filterMap getNameOptional).Nodup)
    (hno : (originals.filterMap getNameOptional).Nodup)
    (pb pa n : String)
    (hbmem : pb ∈ processeds) (hamem : pa ∈ originals)
    (hb : getNameOptional pb = some n) (ha : getNameOptional pa = some n) :
    ∃ r, diff stat processeds originals = some r ∧
      (stat pb > stat pa → (⟨n, pb, pa⟩ : DiffEntry) ∈ r.case1) ∧
      (stat pb ≤ stat pa → (⟨n, pb, pa⟩ : DiffEntry) ∈ r.case2) := by
  refine ⟨_, diff_eq_diffLoop stat processeds originals hp ho hnp hno, ?_, ?_⟩
  · intro hgt
    have hmem := diffLoop_mem_case1 (processeds.map (mkStat stat))
      (originals.map (mkStat stat))
      (statNames_nodup_of_filterMap stat hp hnp)
      (statNames_nodup_of_filterMap stat ho hno)
      (mkStat stat pb) (mkStat stat pa)
      (List.mem_map_of_mem _ hbmem) (List.mem_map_of_mem _ hamem)
      (by simp [mkStat, hb, ha]) (by simpa [mkStat] using hgt)
    simpa [mkStat, hb] using hmem
  · intro hle
    have hmem := diffLoop_mem_case2 (processeds.map (mkStat stat))
      (originals.map (mkStat stat))
      (statNames_nodup_of_filterMap stat hp hnp)
      (statNames_nodup_of_filterMap stat ho hno)
      (mkStat stat pb) (mkStat stat pa)
      (List.mem_map_of_mem _ hbmem) (List.mem_map_of_mem _ hamem)
      (by simp [mkStat, hb, ha]) (by simp [mkStat]; omega)
    simpa [mkStat, hb] using hmem

/-- Witness for the amended C2: equal mtimes at a concrete input land in
Case 2. -/
theorem c2_mtime_classification_witness :
    ∃ r, diff (fun _ => 0) ["out/a.json"] ["in/a.md"] = some r ∧
      ((0 : Int) > 0 → (⟨"a", "out/a.json", "in/a.md"⟩ : DiffEntry) ∈ r.case1) ∧
      ((0 : Int) ≤ 0 → (⟨"a", "out/a.json", "in/a.md"⟩ : DiffEntry) ∈ r.case2) :=
  c2_mtime_classification (fun _ => 0) ["out/a.json"] ["in/a.md"]
    (by decide) (by decide) (by decide) (by decide)
    "out/a.json" "in/a.md" "a" (by decide) (by decide) (by decide) (by decide)

/-! # C6: validation failures abort before any mutation -/

/-- **C6.** If name validation flags any source filename, or duplicate
detection reports any duplicated identity, the build aborts before any
rendering and before any filesystem mutation: the effect list is empty
(no deletion, no render, no per-post write, no index write) and the
status is a validation abort, not success. -/
theorem c6_validation_aborts_before_mutation (force : Bool)
    (postsName : String) (stat : String → Int)
    (render : String → Except String (Option Content))
    (readContent : String → Content) (rmOk : String → Bool)
    (parseDate : String → Int) (inDirFiles outDirFiles : List String)
    (outDir : String)
    (h : checkFilenamesRegex inDirFiles ≠ [] ∨
         ∃ fails, checkDuplicates inDirFiles = some (some fails)) :
    (newMarkdownProcessor force postsName stat render readContent rmOk
        parseDate inDirFiles outDirFiles outDir).1 = [] ∧
    (newMarkdownProcessor force postsName stat render readContent rmOk
        parseDate inDirFiles outDirFiles outDir).2 ≠ BuildStatus.ok := by
  unfold newMarkdownProcessor
  by_cases h1 : checkFilenamesRegex inDirFiles ≠ []
  · rw [if_pos h1]
    exact ⟨rfl, fun hc => BuildStatus.noConfusion hc⟩
  · rcases h with h | ⟨fails, h2⟩
    · exact absurd h h1
    · rw [if_neg h1, h2]
      exact ⟨rfl, fun hc => BuildStatus.noConfusion hc⟩

/-- Witness for C6 at a concrete invalid filename. -/
theorem c6_validation_aborts_before_mutation_witness :
    (newMarkdownProcessor false "posts" (fun _ => 0)
        (fun _ => Except.ok none) (fun _ => ⟨"a", "d", "m", "b", false⟩)
        (fun _ => true) (fun _ => 0) ["in/bad name!.md"] [] "out").1 = [] ∧
    (newMarkdownProcessor false "posts" (fun _ => 0)
        (fun _ => Except.ok none) (fun _ => ⟨"a", "d", "m", "b", false⟩)
        (fun _ => true) (fun _ => 0) ["in/bad name!.md"] [] "out").2
      ≠ BuildStatus.ok :=
  c6_validation_aborts_before_mutation false "posts" (fun _ => 0)
    (fun _ => Except.ok none) (fun _ => ⟨"a", "d", "m", "b", false⟩)
    (fun _ => true) (fun _ => 0) ["in/bad name!.md"] [] "out"
    (Or.inl (by decide))

/-! # C3: render failures are collected, then everything is withheld -/

/-- **C3.** When any member of the render set fails to render, the
orchestrator still dispatches every member of the render set (all
errors surface in one pass), then aborts with `abortedRender`: no
per-post output is written — not even for members that rendered
successfully — and the aggregate index is not written. -/
theorem c3_render_failure_all_or_nothing (force : Bool) (postsName : String)
    (stat : String → Int) (render : String → Except String (Option Content))
    (readContent : String → Content) (rmOk : String → Bool)
    (parseDate : String → Int) (inFiles outFiles : List String)
    (outDir : String) (res : DiffResult)
    (h1 : checkFilenamesRegex inFiles = [])
    (h2 : checkDuplicates inFiles = some none)
    (h3 : diff stat (filteredOut postsName outFiles) inFiles = some res)
    (h4 : ∀ d ∈ res.case3, rmOk d.processedFile = true)
    (h5 : renderErrored render (renderSet force res) = true) :
    (newMarkdownProcessor force postsName stat render readContent rmOk
        parseDate inFiles outFiles outDir).2 = BuildStatus.abortedRender ∧
    (∀ p ∈ renderSet force res, Effect.render p ∈
      (newMarkdownProcessor force postsName stat render readContent rmOk
        parseDate inFiles outFiles outDir).1) ∧
    (∀ pth c, Effect.writePost pth c ∉
      (newMarkdownProcessor force postsName stat render readContent rmOk
        parseDate inFiles outFiles outDir).1) ∧
    (∀ pth idx, Effect.writeIndex pth idx ∉
      (newMarkdownProcessor force postsName stat render readContent rmOk
        parseDate inFiles outFiles outDir).1) := by
  unfold newMarkdownProcessor
  rw [if_neg (by simp [h1]), h2, h3]
  dsimp only
  have hdel : ((res.case3.map (fun v => v.processedFile)).any
      (fun p => !rmOk p)) = false := by
    rw [List.any_eq_false]
    intro p hp
    rw [List.mem_map] at hp
    obtain ⟨d, hd, rfl⟩ := hp
    simp [h4 d hd]
  rw [hdel]
  rw [if_neg (by simp)]
  rw [h5, if_pos rfl]
  refine ⟨rfl, ?_, ?_, ?_⟩
  · intro p hp
    exact List.mem_append.mpr (Or.inr (List.mem_map_of_mem _ hp))
  · intro pth c hmem
    rcases List.mem_append.mp hmem with hm | hm
    · rw [List.mem_map] at hm
      obtain ⟨d, _, hd⟩ := hm
      cases hd
    · rw [List.mem_map] at hm
      obtain ⟨d, _, hd⟩ := hm
      cases hd
  · intro pth idx hmem
    rcases List.mem_append.mp hmem with hm | hm
    · rw [List.mem_map] at hm
      obtain ⟨d, _, hd⟩ := hm
      cases hd
    · rw [List.mem_map] at hm
      obtain ⟨d, _, hd⟩ := hm
      cases hd

/-- Witness for C3: one failing and one succeeding source; both are
dispatched, nothing is written. -/
theorem c3_render_failure_all_or_nothing_witness :
    (newMarkdownProcessor false "posts" (fun _ => 0)
        (fun p => if p = "in/a.md" then Except.error "boom"
                  else Except.ok (some ⟨"b", "d", "m", "html", false⟩))
        (fun _ => ⟨"b", "d", "m", "html", false⟩) (fun _ => true)
        (fun _ => 0) ["in/a.md", "in/b.md"] [] "out").2
      = BuildStatus.abortedRender ∧
    (∀ p ∈ renderSet false ⟨[], [], [],
        [⟨"a", "in/a.md"⟩, ⟨"b", "in/b.md"⟩]⟩, Effect.render p ∈
      (newMarkdownProcessor false "posts" (fun _ => 0)
        (fun p => if p = "in/a.md" then Except.error "boom"
                  else Except.ok (some ⟨"b", "d", "m", "html", false⟩))
        (fun _ => ⟨"b", "d", "m", "html", false⟩) (fun _ => true)
        (fun _ => 0) ["in/a.md", "in/b.md"] [] "out").1) ∧
    (∀ pth c, Effect.writePost pth c ∉
      (newMarkdownProcessor false "posts" (fun _ => 0)
        (fun p => if p = "in/a.md" then Except.error "boom"
                  else Except.ok (some ⟨"b", "d", "m", "html", false⟩))
        (fun _ => ⟨"b", "d", "m", "html", false⟩) (fun _ => true)
        (fun _ => 0) ["in/a.md", "in/b.md"] [] "out").1) ∧
    (∀ pth idx, Effect.writeIndex pth idx ∉
      (newMarkdownProcessor false "posts" (fun _ => 0)
        (fun p => if p = "in/a.md" then Except.error "boom"
                  else Except.ok (some ⟨"b", "d", "m", "html", false⟩))
        (fun _ => ⟨"b", "d", "m", "html", false⟩) (fun _ => true)
        (fun _ => 0) ["in/a.md", "in/b.md"] [] "out").1) :=
  c3_render_failure_all_or_nothing false "posts" (fun _ => 0)
    (fun p => if p = "in/a.md" then Except.error "boom"
              else Except.ok (some ⟨"b", "d", "m", "html", false⟩))
    (fun _ => ⟨"b", "d", "m", "html", false⟩) (fun _ => true)
    (fun _ => 0) ["in/a.md", "in/b.md"] [] "out"
    ⟨[], [], [], [⟨"a", "in/a.md"⟩, ⟨"b", "in/b.md"⟩]⟩
    rfl rfl rfl (by simp) rfl

/-! # C5: a deletion failure is fatal, not logged-and-ignored -/

/-- **C5 counterexample.** A run whose only Case-3 orphan
(`out/b.json`) fails to delete: the run crashes with an empty effect
list — the render of `in/a.md`, its per-post write and the index write,
which the claim says still complete, never happen, and nothing is
logged. -/
theorem c5_deletion_failure_counterexample :
    newMarkdownProcessor false "posts" (fun _ => 0)
      (fun _ => Except.ok (some ⟨"a", "d", "m", "html", false⟩))
      (fun _ => ⟨"a", "d", "m", "html", false⟩)
      (fun _ => false) (fun _ => 0) ["in/a.md"] ["out/b.json"] "out"
      = ([], BuildStatus.crashed) := rfl

/-- **C5 (amended).** A failure while deleting a Case-3 orphan is fatal:
the `fs.rm` rejection crashes the run right after the deletion fan-out,
so only the deletions that succeeded take effect and no render, no
per-post write and no index write happens. -/
theorem c5_deletion_failure_crashes (force : Bool) (postsName : String)
    (stat : String → Int) (render : String → Except String (Option Content))
    (readContent : String → Content) (rmOk : String → Bool)
    (parseDate : String → Int) (inFiles outFiles : List String)
    (outDir : String) (res : DiffResult)
    (h1 : checkFilenamesRegex inFiles = [])
    (h2 : checkDuplicates inFiles = some none)
    (h3 : diff stat (filteredOut postsName outFiles) inFiles = some res)
    (h4 : ∃ d ∈ res.case3, rmOk d.processedFile = false) :
    newMarkdownProcessor force postsName stat render readContent rmOk
        parseDate inFiles outFiles outDir
      = (((res.case3.map (fun v => v.processedFile)).filter rmOk).map
          Effect.delete, BuildStatus.crashed) := by
  unfold newMarkdownProcessor
  rw [if_neg (by simp [h1]), h2, h3]
  dsimp only
  have hdel : ((res.case3.map (fun v => v.processedFile)).any
      (fun p => !rmOk p)) = true := by
    rw [List.any_eq_true]
    obtain ⟨d, hd, hrm⟩ := h4
    exact ⟨d.processedFile, List.mem_map_of_mem _ hd, by simp [hrm]⟩
  rw [hdel, if_pos rfl]

/-- Witness for the amended C5 at a concrete input. -/
theorem c5_deletion_failure_crashes_witness :
    newMarkdownProcessor false "posts" (fun _ => 0)
      (fun _ => Except.ok (some ⟨"a", "d", "m", "html", false⟩))
      (fun _ => ⟨"a", "d", "m", "html", false⟩)
      (fun _ => false) (fun _ => 0) ["in/a.md"] ["out/b.json"] "out"
      = ((([(⟨"b", "out/b.json"⟩ : Case3Entry)].map
            (fun v => v.processedFile)).filter (fun _ => false)).map
          Effect.delete, BuildStatus.crashed) :=
  c5_deletion_failure_crashes false "posts" (fun _ => 0)
    (fun _ => Except.ok (some ⟨"a", "d", "m", "html", false⟩))
    (fun _ => ⟨"a", "d", "m", "html", false⟩)
    (fun _ => false) (fun _ => 0) ["in/a.md"] ["out/b.json"] "out"
    ⟨[], [], [⟨"b", "out/b.json"⟩], [⟨"a", "in/a.md"⟩]⟩
    rfl rfl rfl ⟨⟨"b", "out/b.json"⟩, by decide, rfl⟩

theorem diffLoop_c12_src (ps : List Stat) :
    ∀ (om : List Stat) (e : DiffEntry),
      (e ∈ (diffLoop ps om).case1 ∨ e ∈ (diffLoop ps om).case2) →
      (∃ p ∈ ps, p.name = e.name ∧ p.path = e.processedFile) ∧
      (∃ o ∈ om, o.name = e.name ∧ o.path = e.originalFile) := by
  induction ps with
  | nil =>
    intro om e he
    rcases he with he | he <;> simp [diffLoop] at he
  | cons q rest ih =>
    intro om e he
    rw [diffLoop] at he
    rcases hg : mapGet om q.name with _ | o2
    · rw [hg] at he
      dsimp only at he
      obtain ⟨⟨p, hp, hpe⟩, ⟨o, ho, hoe⟩⟩ := ih om e he
      exact ⟨⟨p, List.mem_cons_of_mem _ hp, hpe⟩, ⟨o, ho, hoe⟩⟩
    · obtain ⟨honame, homem⟩ := mapGet_eq_some hg
      rw [hg] at he
      dsimp only at he
      by_cases hmt : q.mtime > o2.mtime
      · rw [if_pos hmt] at he
        dsimp only at he
        rcases he with he | he
        · rcases List.mem_cons.mp he with rfl | he'
          · exact ⟨⟨q, List.mem_cons_self _ _, rfl, rfl⟩,
              ⟨o2, homem, honame, rfl⟩⟩
          · obtain ⟨⟨p, hp, hpe⟩, ⟨o, ho, hoe⟩⟩ :=
              ih (mapDelete om q.name) e (Or.inl he')
            exact ⟨⟨p, List.mem_cons_of_mem _ hp, hpe⟩,
              ⟨o, (mem_mapDelete_iff.mp ho).1, hoe⟩⟩
        · obtain ⟨⟨p, hp, hpe⟩, ⟨o, ho, hoe⟩⟩ :=
            ih (mapDelete om q.name) e (Or.inr he)
          exact ⟨⟨p, List.mem_cons_of_mem _ hp, hpe⟩,
            ⟨o, (mem_mapDelete_iff.mp ho).1, hoe⟩⟩
      · rw [if_neg hmt] at he
        dsimp only at he
        rcases he with he | he
        · obtain ⟨⟨p, hp, hpe⟩, ⟨o, ho, hoe⟩⟩ :=
            ih (mapDelete om q.name) e (Or.inl he)
          exact ⟨⟨p, List.mem_cons_of_mem _ hp, hpe⟩,
            ⟨o, (mem_mapDelete_iff.mp ho).1, hoe⟩⟩
        · rcases List.mem_cons.mp he with rfl | he'
          · exact ⟨⟨q, List.mem_cons_self _ _, rfl, rfl⟩,
              ⟨o2, homem, honame, rfl⟩⟩
          · obtain ⟨⟨p, hp, hpe⟩, ⟨o, ho, hoe⟩⟩ :=
              ih (mapDelete om q.name) e (Or.inr he')
            exact ⟨⟨p, List.mem_cons_of_mem _ hp, hpe⟩,
              ⟨o, (mem_mapDelete_iff.mp ho).1, hoe⟩⟩

theorem diffLoop_c4_src (ps : List Stat) :
    ∀ (om : List Stat) (e : Case4Entry), e ∈ (diffLoop ps om).case4 →
      ∃ o ∈ om, o.name = e.name ∧ o.path = e.originalFile := by
  induction ps with
  | nil =>
    intro om e he
    rw [diffLoop] at he
    dsimp only at he
    rw [List.mem_map] at he
    obtain ⟨o, ho, rfl⟩ := he
    exact ⟨o, ho, rfl, rfl⟩
  | cons q rest ih =>
    intro om e he
    rw [diffLoop] at he
    rcases hg : mapGet om q.name with _ | o2
    · rw [hg] at he
      dsimp only at he
      exact ih om e he
    · rw [hg] at he
      dsimp only at he
      by_cases hmt : q.mtime > o2.mtime
      · rw [if_pos hmt] at he
        dsimp only at he
        obtain ⟨o, ho, hoe⟩ := ih (mapDelete om q.name) e he
        exact ⟨o, (mem_mapDelete_iff.mp ho).1, hoe⟩
      · rw [if_neg hmt] at he
        dsimp only at he
        obtain ⟨o, ho, hoe⟩ := ih (mapDelete om q.name) e he
        exact ⟨o, (mem_mapDelete_iff.mp ho).1, hoe⟩

theorem mem_map_mkStat_path {stat : String → Int} {A : List String} {o : Stat}
    (h : o ∈ A.map (mkStat stat)) : o = mkStat stat o.path := by
  rw [List.mem_map] at h
  obtain ⟨q, _, rfl⟩ := h
  rfl

/-! # C4: render set and reuse set -/

/-- **C4.** On a successful pass the dispatched render set is exactly
Case 2 ∪ Case 4 ∪ (Case 1 when `force` is set); the reuse set is Case 1
minus the forced subset (empty when `force`), each reused output being
read verbatim from its existing JSON file (`readContent`, no re-render
and no validation step) and folded into the posts list that forms the
written index; under `force = false` no Case-1 member's source is ever
dispatched to the renderer. -/
theorem c4_render_and_reuse_sets (force : Bool) (postsName : String)
    (stat : String → Int) (render : String → Except String (Option Content))
    (readContent : String → Content) (rmOk : String → Bool)
    (parseDate : String → Int) (inFiles outFiles : List String)
    (outDir : String) (res : DiffResult)
    (hin : ∀ p ∈ inFiles, (getNameOptional p).isSome)
    (hnin : (inFiles.filterMap getNameOptional).Nodup)
    (hout : ∀ p ∈ filteredOut postsName outFiles, (getNameOptional p).isSome)
    (hnout : ((filteredOut postsName outFiles).filterMap getNameOptional).Nodup)
    (h1 : checkFilenamesRegex inFiles = [])
    (h2 : checkDuplicates inFiles = some none)
    (h3 : diff stat (filteredOut postsName outFiles) inFiles = some res)
    (h4 : ∀ d ∈ res.case3, rmOk d.processedFile = true)
    (h5 : renderErrored render (renderSet force res) = false) :
    (newMarkdownProcessor force postsName stat render readContent rmOk
        parseDate inFiles outFiles outDir).2 = BuildStatus.ok ∧
    (∀ p, Effect.render p ∈
        (newMarkdownProcessor force postsName stat render readContent rmOk
          parseDate inFiles outFiles outDir).1 ↔ p ∈ renderSet force res) ∧
    Effect.writeIndex (outPath outDir postsName)
      (postsSort parseDate
        (generatePostsjson (renderResults render (renderSet force res)) ++
          reuseFold readContent (if force then [] else res.case1))) ∈
      (newMarkdownProcessor force postsName stat render readContent rmOk
        parseDate inFiles outFiles outDir).1 ∧
    (force = false → ∀ e ∈ res.case1, Effect.render e.originalFile ∉
      (newMarkdownProcessor force postsName stat render readContent rmOk
        parseDate inFiles outFiles outDir).1) := by
  unfold newMarkdownProcessor
  rw [if_neg (by simp [h1]), h2, h3]
  dsimp only
  have hdel : ((res.case3.map (fun v => v.processedFile)).any
      (fun p => !rmOk p)) = false := by
    rw [List.any_eq_false]
    intro p hp
    rw [List.mem_map] at hp
    obtain ⟨d, hd, rfl⟩ := hp
    simp [h4 d hd]
  rw [hdel, if_neg (by simp), h5, if_neg (by simp)]
  have hiff : ∀ p, Effect.render p ∈
      ((res.case3.map (fun v => v.processedFile)).filter rmOk).map Effect.delete ++
        (renderSet force res).map Effect.render ++
        (renderResults render (renderSet force res)).map
            (fun c => Effect.writePost (outPath outDir c.name) c) ++
        [Effect.writeIndex (outPath outDir postsName)
          (postsSort parseDate
            (generatePostsjson (renderResults render (renderSet force res)) ++
              reuseFold readContent (if force then [] else res.case1)))]
      ↔ p ∈ renderSet force res := by
    intro p
    constructor
    · intro hm
      rcases List.mem_append.mp hm with hm | hm
      · rcases List.mem_append.mp hm with hm | hm
        · rcases List.mem_append.mp hm with hm | hm
          · rw [List.mem_map] at hm
            obtain ⟨d, _, hd⟩ := hm
            exact absurd hd (by intro hc; cases hc)
          · rw [List.mem_map] at hm
            obtain ⟨q, hq, hd⟩ := hm
            injection hd with h
            subst h
            exact hq
        · rw [List.mem_map] at hm
          obtain ⟨c, _, hd⟩ := hm
          exact absurd hd (by intro hc; cases hc)
      · rw [List.mem_singleton] at hm
        exact absurd hm (by intro hc; cases hc)
    · intro hp
      exact List.mem_append.mpr (Or.inl (List.mem_append.mpr (Or.inl
        (List.mem_append.mpr (Or.inr (List.mem_map_of_mem _ hp))))))
  refine ⟨rfl, hiff, ?_, ?_⟩
  · exact List.mem_append.mpr (Or.inr (List.mem_singleton.mpr rfl))
  · intro hforce e he hmem
    subst hforce
    have hres : res = diffLoop ((filteredOut postsName outFiles).map (mkStat stat))
        (inFiles.map (mkStat stat)) := by
      have hd := diff_eq_diffLoop stat (filteredOut postsName outFiles) inFiles
        hout hin hnout hnin
      exact Option.some.inj (h3.symm.trans hd)
    have hp : e.originalFile ∈ renderSet false res := (hiff _).mp hmem
    rw [renderSet, if_neg (by simp), List.append_nil] at hp
    have hc1pos : 0 < (diffLoop ((filteredOut postsName outFiles).map (mkStat stat))
        (inFiles.map (mkStat stat))).case1.countP (fun x => x.name == e.name) :=
      List.countP_pos_iff.mpr ⟨e, hres ▸ he, by simp⟩
    have hnodups1 := statNames_nodup_of_filterMap stat hout hnout
    have hnodups2 := statNames_nodup_of_filterMap stat hin hnin
    obtain ⟨-, ⟨o1, ho1, ho1n, ho1p⟩⟩ :=
      diffLoop_c12_src _ _ e (Or.inl (hres ▸ he))
    have ho1eq : o1 = mkStat stat e.originalFile := by
      have h := mem_map_mkStat_path ho1
      rw [ho1p] at h
      exact h
    have hcnt := diffLoop_caseCount ((filteredOut postsName outFiles).map (mkStat stat))
      (inFiles.map (mkStat stat)) hnodups1 hnodups2 e.name
    have hle : caseCount (diffLoop ((filteredOut postsName outFiles).map (mkStat stat))
        (inFiles.map (mkStat stat))) e.name ≤ 1 := by
      rw [hcnt]
      split <;> omega
    unfold caseCount at hle
    rcases List.mem_append.mp hp with hp | hp
    · rw [List.mem_map] at hp
      obtain ⟨e2, he2, he2p⟩ := hp
      obtain ⟨-, ⟨o2, ho2, ho2n, ho2p⟩⟩ :=
        diffLoop_c12_src _ _ e2 (Or.inr (hres ▸ he2))
      have ho2eq : o2 = mkStat stat e.originalFile := by
        have h := mem_map_mkStat_path ho2
        rw [ho2p, he2p] at h
        exact h
      have hname : e2.name = e.name := by
        rw [← ho2n, ← ho1n, ho1eq, ho2eq]
      have hc2pos : 0 < (diffLoop ((filteredOut postsName outFiles).map (mkStat stat))
          (inFiles.map (mkStat stat))).case2.countP (fun x => x.name == e.name) :=
        List.countP_pos_iff.mpr ⟨e2, hres ▸ he2, by simp [hname]⟩
      omega
    · rw [List.mem_map] at hp
      obtain ⟨e4, he4, he4p⟩ := hp
      obtain ⟨o4, ho4, ho4n, ho4p⟩ :=
        diffLoop_c4_src _ _ e4 (hres ▸ he4)
      have ho4eq : o4 = mkStat stat e.originalFile := by
        have h := mem_map_mkStat_path ho4
        rw [ho4p, he4p] at h
        exact h
      have hname : e4.name = e.name := by
        rw [← ho4n, ← ho1n, ho1eq, ho4eq]
      have hc4pos : 0 < (diffLoop ((filteredOut postsName outFiles).map (mkStat stat))
          (inFiles.map (mkStat stat))).case4.countP (fun x => x.name == e.name) :=
        List.countP_pos_iff.mpr ⟨e4, hres ▸ he4, by simp [hname]⟩
      omega

/-- Witness for C4 at a concrete one-source fresh build. -/
theorem c4_render_and_reuse_sets_witness :
    (newMarkdownProcessor false "posts" (fun _ => 0)
        (fun _ => Except.ok (some ⟨"a", "2024", "m", "html", false⟩))
        (fun _ => ⟨"a", "2024", "m", "html", false⟩) (fun _ => true)
        (fun _ => 0) ["in/a.md"] [] "out").2 = BuildStatus.ok ∧
    (∀ p, Effect.render p ∈
        (newMarkdownProcessor false "posts" (fun _ => 0)
          (fun _ => Except.ok (some ⟨"a", "2024", "m", "html", false⟩))
          (fun _ => ⟨"a", "2024", "m", "html", false⟩) (fun _ => true)
          (fun _ => 0) ["in/a.md"] [] "out").1 ↔
        p ∈ renderSet false ⟨[], [], [], [⟨"a", "in/a.md"⟩]⟩) ∧
    Effect.writeIndex (outPath "out" "posts")
      (postsSort (fun _ => 0)
        (generatePostsjson
          (renderResults (fun _ => Except.ok (some ⟨"a", "2024", "m", "html", false⟩))
            (renderSet false ⟨[], [], [], [⟨"a", "in/a.md"⟩]⟩)) ++
          reuseFold (fun _ => ⟨"a", "2024", "m", "html", false⟩)
            (if false then [] else ([] : List DiffEntry)))) ∈
      (newMarkdownProcessor false "posts" (fun _ => 0)
        (fun _ => Except.ok (some ⟨"a", "2024", "m", "html", false⟩))
        (fun _ => ⟨"a", "2024", "m", "html", false⟩) (fun _ => true)
        (fun _ => 0) ["in/a.md"] [] "out").1 ∧
    (false = false → ∀ e ∈ ([] : List DiffEntry), Effect.render e.originalFile ∉
      (newMarkdownProcessor false "posts" (fun _ => 0)
        (fun _ => Except.ok (some ⟨"a", "2024", "m", "html", false⟩))
        (fun _ => ⟨"a", "2024", "m", "html", false⟩) (fun _ => true)
        (fun _ => 0) ["in/a.md"] [] "out").1) :=
  c4_render_and_reuse_sets false "posts" (fun _ => 0)
    (fun _ => Except.ok (some ⟨"a", "2024", "m", "html", false⟩))
    (fun _ => ⟨"a", "2024", "m", "html", false⟩) (fun _ => true)
    (fun _ => 0) ["in/a.md"] [] "out"
    ⟨[], [], [], [⟨"a", "in/a.md"⟩]⟩
    (by decide) (by decide) (by decide) (by decide)
    rfl rfl rfl (by decide) rfl

/-! # C8: the aggregate index builder -/

theorem generatePostsjson_foldl (l : List Content) :
    ∀ acc, l.foldl (fun prev cur =>
      if cur.unlisted then prev else prev ++ [omitContent cur]) acc
      = acc ++ (l.filter (fun c => !c.unlisted)).map omitContent := by
  induction l with
  | nil =>
    intro acc
    simp
  | cons c rest ih =>
    intro acc
    rw [List.foldl_cons, List.filter_cons]
    by_cases hu : c.unlisted = true
    · rw [if_pos hu, ih]
      simp [hu]
    · rw [if_neg hu, ih]
      simp [hu]

theorem generatePostsjson_eq (l : List Content) :
    generatePostsjson l = (l.filter (fun c => !c.unlisted)).map omitContent := by
  unfold generatePostsjson
  simpa using generatePostsjson_foldl l []

/-- **C8.** The aggregate index builder drops every record flagged
`unlisted` and strips the `content` field from each remaining record (in
order); the empty input yields the empty index; and the orchestrator's
sort phase permutes the entries (a total function — it cannot crash)
into descending order of parsed written-date, entries with equal dates
in unspecified relative order. -/
theorem c8_aggregate_index (parseDate : String → Int) (l : List Content) :
    generatePostsjson l = (l.filter (fun c => !c.unlisted)).map omitContent ∧
    generatePostsjson ([] : List Content) = [] ∧
    (postsSort parseDate (generatePostsjson l)).Perm (generatePostsjson l) ∧
    (postsSort parseDate (generatePostsjson l)).Pairwise
      (fun a b => parseDate b.writtenDate ≤ parseDate a.writtenDate) := by
  refine ⟨generatePostsjson_eq l, rfl, ?_, ?_⟩
  · exact List.mergeSort_perm _ _
  · have h := @List.sorted_mergeSort PostEntry
      (fun a b : PostEntry =>
        decide (parseDate b.writtenDate ≤ parseDate a.writtenDate))
      (by
        intro a b c hab hbc
        simp only [decide_eq_true_eq] at hab hbc ⊢
        omega)
      (by
        intro a b
        simp only [Bool.or_eq_true, decide_eq_true_eq]
        exact Int.le_total _ _)
      (generatePostsjson l)
    exact h.imp (fun hab => of_decide_eq_true hab)

/-! # Helper lemmas for the two-run theorem -/

theorem checkFilenamesRegex_nil_of_resolvable {files : List String}
    (h : ∀ p ∈ files, (getNameOptional p).isSome) :
    checkFilenamesRegex files = [] := by
  rw [checkFilenamesRegex_eq, List.filter_eq_nil_iff]
  intro p hp
  obtain ⟨n, hn⟩ := Option.isSome_iff_exists.mp (h p hp)
  simp [hn]

theorem dupBuild_eq (files : List String) :
    ∀ (m : List (String × List String)),
    (∀ p ∈ files, (getNameOptional p).isSome) →
    (files.filterMap getNameOptional).Nodup →
    (∀ p ∈ files, ∀ n, getNameOptional p = some n → ∀ e ∈ m, e.1 ≠ n) →
    dupBuild files m
      = some (m ++ files.map (fun p => ((getNameOptional p).getD "", [p]))) := by
  induction files with
  | nil =>
    intro m _ _ _
    simp [dupBuild]
  | cons p rest ih =>
    intro m hres hnd hdisj
    rcases hn : getNameOptional p with _ | n
    · exact absurd (hres p (List.mem_cons_self _ _)) (by simp [hn])
    · rw [dupBuild, hn]
      dsimp only
      have hset : addToDup m n p = m ++ [(n, [p])] := by
        unfold addToDup
        rw [if_neg]
        intro hany
        rw [List.any_eq_true] at hany
        obtain ⟨e, hem, he⟩ := hany
        exact hdisj p (List.mem_cons_self _ _) n hn e hem (by simpa using he)
      rw [hset]
      simp only [List.filterMap_cons, hn] at hnd
      have hnd' := List.nodup_cons.mp hnd
      have hres' : ∀ q ∈ rest, (getNameOptional q).isSome :=
        fun q hq => hres q (List.mem_cons_of_mem _ hq)
      have hdisj' : ∀ q ∈ rest, ∀ nq, getNameOptional q = some nq →
          ∀ e ∈ m ++ [(n, [p])], e.1 ≠ nq := by
        intro q hq nq hnq e he
        rcases List.mem_append.mp he with hm | hm
        · exact hdisj q (List.mem_cons_of_mem _ hq) nq hnq e hm
        · rw [List.mem_singleton] at hm
          subst hm
          intro hc
          have hceq : n = nq := hc
          rw [hceq] at hnd'
          exact hnd'.1 (List.mem_filterMap.mpr ⟨q, hq, hnq⟩)
      refine (ih _ hres' hnd'.2 hdisj').trans ?_
      simp [hn]

theorem checkDuplicates_none_of_nodup {files : List String}
    (hres : ∀ p ∈ files, (getNameOptional p).isSome)
    (hnd : (files.filterMap getNameOptional).Nodup) :
    checkDuplicates files = some none := by
  unfold checkDuplicates
  rw [dupBuild_eq files [] hres hnd (by intro p hp n hn e he; cases he)]
  rw [Option.map_some', List.nil_append]
  have hfil : (files.map (fun p => ((getNameOptional p).getD "", [p]))).filter
      (fun e => e.2.length ≠ 1) = [] := by
    rw [List.filter_eq_nil_iff]
    intro e he
    rw [List.mem_map] at he
    obtain ⟨q, _, rfl⟩ := he
    simp
  dsimp only
  rw [hfil]
  rfl

theorem renderErrored_false_of_ok (render : String → Except String (Option Content))
    {paths : List String}
    (h : ∀ p ∈ paths, ∃ c, render p = Except.ok (some c)) :
    renderErrored render paths = false := by
  unfold renderErrored
  rw [List.any_eq_false]
  intro o ho
  rw [List.mem_map] at ho
  obtain ⟨p, hp, rfl⟩ := ho
  obtain ⟨c, hc⟩ := h p hp
  simp [hc]

theorem foldl_renderPush (outs : List (Except String (Option Content))) :
    ∀ acc, outs.foldl renderPush acc = acc ++ outs.filterMap (fun o =>
      match o with
      | Except.ok (some c) => some c
      | _ => none) := by
  induction outs with
  | nil =>
    intro acc
    simp
  | cons o rest ih =>
    intro acc
    rw [List.foldl_cons, List.filterMap_cons]
    rcases o with e | oc
    · rw [show renderPush acc (Except.error e) = acc from rfl, ih]
    · rcases oc with _ | c
      · rw [show renderPush acc (Except.ok none) = acc from rfl, ih]
      · rw [show renderPush acc (Except.ok (some c)) = acc ++ [c] from rfl, ih]
        simp

theorem renderResults_eq (render : String → Except String (Option Content))
    (paths : List String) :
    renderResults render paths = (paths.map render).filterMap (fun o =>
      match o with
      | Except.ok (some c) => some c
      | _ => none) := by
  unfold renderResults
  simpa using foldl_renderPush (paths.map render) []

theorem foldl_append_join {α β : Type} (f : α → List β) (l : List α) :
    ∀ acc, l.foldl (fun a e => a ++ f e) acc = acc ++ (l.map f).flatten := by
  induction l with
  | nil =>
    intro acc
    simp
  | cons e rest ih =>
    intro acc
    rw [List.foldl_cons, ih]
    simp

theorem reuseFold_eq (readContent : String → Content) (entries : List DiffEntry) :
    reuseFold readContent entries
      = (entries.map (fun e =>
          generatePostsjson [readContent e.processedFile])).flatten := by
  unfold reuseFold
  simpa using foldl_append_join
    (fun e => generatePostsjson [readContent e.processedFile]) entries []

theorem isNameChar_ne_slash {c : Char} (h : isNameChar c = true) : ¬c = '/' := by
  rintro rfl
  exact absurd h (by decide)

theorem isNameChar_ne_dot {c : Char} (h : isNameChar c = true) : ¬c = '.' := by
  rintro rfl
  exact absurd h (by decide)

theorem afterLastSlash_append (D N : List Char)
    (hN : ∀ c ∈ N, ¬c = '/') (hne : N ≠ []) :
    afterLastSlash (D ++ '/' :: N) = N := by
  unfold afterLastSlash
  rw [List.reverse_append, List.reverse_cons, List.append_assoc]
  obtain ⟨h, t, hrev⟩ : ∃ h t, N.reverse = h :: t := by
    rcases hr : N.reverse with _ | ⟨h, t⟩
    · exact absurd (by simpa using hr) hne
    · exact ⟨h, t, rfl⟩
  have hh : h ∈ N := by
    rw [← List.mem_reverse, hrev]
    exact List.mem_cons_self _ _
  rw [hrev, List.cons_append,
    List.dropWhile_cons_of_neg (by simp [hN h hh]), ← List.cons_append, ← hrev,
    List.takeWhile_append_of_pos
      (by intro a ha; simp [hN a (List.mem_reverse.mp ha)]),
    show (['/'] : List Char) ++ D.reverse = '/' :: D.reverse from rfl,
    List.takeWhile_cons_of_neg (by simp), List.append_nil, List.reverse_reverse]

theorem stripExtChars_name_json (N : List Char) (hne : N ≠ []) :
    stripExtChars (N ++ ['.', 'j', 's', 'o', 'n']) = N := by
  have hlen : 1 ≤ N.length := List.length_pos.mpr hne
  have hsuf : (N ++ ['.', 'j', 's', 'o', 'n']).reverse.takeWhile
      (fun c => !(c == '.')) = ['n', 'o', 's', 'j'] := by
    rw [List.reverse_append,
      show (['.', 'j', 's', 'o', 'n'] : List Char).reverse
        = ['n', 'o', 's', 'j', '.'] from rfl,
      show (['n', 'o', 's', 'j', '.'] : List Char) ++ N.reverse
        = 'n' :: 'o' :: 's' :: 'j' :: '.' :: N.reverse from rfl,
      List.takeWhile_cons_of_pos (by decide),
      List.takeWhile_cons_of_pos (by decide),
      List.takeWhile_cons_of_pos (by decide),
      List.takeWhile_cons_of_pos (by decide),
      List.takeWhile_cons_of_neg (by decide)]
  unfold stripExtChars
  rw [if_neg]
  swap
  · intro habs
    have hlab : N.length + 5 = 2 := by simpa using congrArg List.length habs
    omega
  dsimp only
  rw [hsuf]
  have hl : (N ++ ['.', 'j', 's', 'o', 'n']).length = N.length + 5 := by
    simp
  rw [show (['n', 'o', 's', 'j'] : List Char).length = 4 from rfl, hl]
  rw [if_neg (by omega), if_neg (by omega),
    show N.length + 5 - 4 - 1 = N.length from by omega]
  exact List.take_left N ['.', 'j', 's', 'o', 'n']

theorem parseName_outPath (outDir n : String) (hn : postNameRegexTest n = true) :
    parseName (outPath outDir n) = n := by
  obtain ⟨hne, hchars⟩ : n.data ≠ [] ∧ ∀ c ∈ n.data, isNameChar c = true := by
    unfold postNameRegexTest at hn
    rw [Bool.and_eq_true, List.all_eq_true] at hn
    exact ⟨by simpa [List.isEmpty_iff] using hn.1, hn.2⟩
  unfold parseName outPath
  rw [String.data_append, String.data_append, String.data_append]
  have hjson : (".json" : String).data = ['.', 'j', 's', 'o', 'n'] := rfl
  have hslash : ("/" : String).data = ['/'] := rfl
  rw [hjson, hslash]
  have hres : outDir.data ++ ['/'] ++ n.data ++ ['.', 'j', 's', 'o', 'n']
      = outDir.data ++ '/' :: (n.data ++ ['.', 'j', 's', 'o', 'n']) := by
    simp
  rw [hres, afterLastSlash_append _ _ ?hslashes ?hnonempty]
  case hslashes =>
    intro c hc
    rcases List.mem_append.mp hc with hm | hm
    · exact isNameChar_ne_slash (hchars c hm)
    · have hm5 : c = '.' ∨ c = 'j' ∨ c = 's' ∨ c = 'o' ∨ c = 'n' := by
        simpa using hm
      rcases hm5 with rfl | rfl | rfl | rfl | rfl <;> decide
  case hnonempty =>
    intro habs
    rcases List.append_eq_nil.mp habs with ⟨-, h⟩
    cases h
  rw [stripExtChars_name_json _ hne]

theorem getNameOptional_outPath (outDir n : String)
    (hn : postNameRegexTest n = true) :
    getNameOptional (outPath outDir n) = some n := by
  unfold getNameOptional
  dsimp only
  rw [parseName_outPath outDir n hn, if_pos hn]

theorem diffLoop_zipped {α : Type} (f g : α → Stat) (l : List α)
    (hname : ∀ a ∈ l, (f a).name = (g a).name)
    (hmt : ∀ a ∈ l, (f a).mtime > (g a).mtime)
    (hnodup : (l.map (fun a => (f a).name)).Nodup) :
    diffLoop (l.map f) (l.map g)
      = ⟨l.map (fun a => ⟨(f a).name, (f a).path, (g a).path⟩), [], [], []⟩ := by
  induction l with
  | nil => rfl
  | cons a rest ih =>
    rw [List.map_cons, List.map_cons, diffLoop]
    have hga : ((g a).name == (f a).name) = true := by
      simp [hname a (List.mem_cons_self _ _)]
    have hnd' : (f a).name ∉ rest.map (fun b => (f b).name) ∧
        (rest.map (fun b => (f b).name)).Nodup := List.nodup_cons.mp hnodup
    have hget : mapGet (g a :: rest.map g) (f a).name = some (g a) := by
      unfold mapGet
      exact List.find?_cons_of_pos _ hga
    rw [hget]
    dsimp only
    rw [if_pos (hmt a (List.mem_cons_self _ _))]
    have hdel : mapDelete (g a :: rest.map g) (f a).name = rest.map g := by
      unfold mapDelete
      rw [List.filter_cons]
      rw [if_neg (by rw [hga]; simp)]
      rw [List.filter_eq_self.mpr]
      intro x hx
      rw [List.mem_map] at hx
      obtain ⟨b, hb, rfl⟩ := hx
      have hgb : (g b).name = (f b).name :=
        (hname b (List.mem_cons_of_mem _ hb)).symm
      have hneq : (f b).name ≠ (f a).name := by
        intro hc
        exact hnd'.1 (hc ▸ List.mem_map_of_mem (fun b => (f b).name) hb)
      simp [hgb, hneq]
    rw [hdel, ih (fun b hb => hname b (List.mem_cons_of_mem _ hb))
      (fun b hb => hmt b (List.mem_cons_of_mem _ hb)) hnd'.2]
    rfl

theorem diff_nil_processeds (stat : String → Int) (inFiles : List String)
    (hres : ∀ p ∈ inFiles, (getNameOptional p).isSome)
    (hnd : (inFiles.filterMap getNameOptional).Nodup) :
    diff stat [] inFiles = some ⟨[], [], [],
      (inFiles.map (mkStat stat)).map (fun o => ⟨o.name, o.path⟩)⟩ := by
  unfold diff
  rw [show buildStatMap stat [] [] = some [] from rfl]
  rw [buildStatMap_eq_map stat inFiles [] hres hnd
    (by intro p hp n hn; simp [statNames])]
  simp [diffLoop]

theorem reuseFold_cons (readContent : String → Content) (e : DiffEntry)
    (es : List DiffEntry) :
    reuseFold readContent (e :: es)
      = generatePostsjson [readContent e.processedFile] ++
        reuseFold readContent es := by
  rw [reuseFold_eq, reuseFold_eq, List.map_cons, List.flatten_cons]

theorem renderResults_cons (render : String → Except String (Option Content))
    (p : String) (paths : List String) :
    renderResults render (p :: paths)
      = (match render p with
         | Except.ok (some c) => [c]
         | _ => []) ++ renderResults render paths := by
  rw [renderResults_eq, renderResults_eq, List.map_cons, List.filterMap_cons]
  rcases render p with e | oc
  · simp
  · rcases oc with _ | c <;> simp

theorem generatePostsjson_append (l1 l2 : List Content) :
    generatePostsjson (l1 ++ l2)
      = generatePostsjson l1 ++ generatePostsjson l2 := by
  simp [generatePostsjson_eq, List.filter_append]

theorem reuse_matches_renders (render : String → Except String (Option Content))
    (readContent : String → Content) (outDir : String) (l : List String)
    (hrender : ∀ p ∈ l, ∃ c, render p = Except.ok (some c))
    (hread : ∀ p ∈ l, ∀ c, render p = Except.ok (some c) →
      readContent (outPath outDir ((getNameOptional p).getD "")) = c) :
    reuseFold readContent (l.map (fun p =>
        (⟨(getNameOptional p).getD "",
          outPath outDir ((getNameOptional p).getD ""), p⟩ : DiffEntry)))
      = generatePostsjson (renderResults render l) := by
  induction l with
  | nil => rfl
  | cons p rest ih =>
    obtain ⟨c, hc⟩ := hrender p (List.mem_cons_self _ _)
    rw [List.map_cons, reuseFold_cons, renderResults_cons, hc]
    dsimp only
    rw [hread p (List.mem_cons_self _ _) c hc]
    rw [ih (fun q hq => hrender q (List.mem_cons_of_mem _ hq))
      (fun q hq => hread q (List.mem_cons_of_mem _ hq))]
    rw [generatePostsjson_append]

/-! # C9: the second run of a double build -/

theorem run1_from_empty (postsName outDir : String)
    (stat1 parseDate : String → Int)
    (render : String → Except String (Option Content))
    (readContent : String → Content) (rmOk : String → Bool)
    (inFiles : List String)
    (hres : ∀ p ∈ inFiles, (getNameOptional p).isSome)
    (hnd : (inFiles.filterMap getNameOptional).Nodup)
    (hrender : ∀ p ∈ inFiles, ∃ c, render p = Except.ok (some c)) :
    newMarkdownProcessor false postsName stat1 render readContent rmOk
        parseDate inFiles [] outDir
      = (inFiles.map Effect.render ++
          (renderResults render inFiles).map
            (fun c => Effect.writePost (outPath outDir c.name) c) ++
          [Effect.writeIndex (outPath outDir postsName)
            (postsSort parseDate
              (generatePostsjson (renderResults render inFiles)))],
        BuildStatus.ok) := by
  have hcheck := checkFilenamesRegex_nil_of_resolvable hres
  have hdup := checkDuplicates_none_of_nodup hres hnd
  have hdiff1 := diff_nil_processeds stat1 inFiles hres hnd
  have hrs1 : renderSet false ⟨[], [], [],
      (inFiles.map (mkStat stat1)).map (fun o => ⟨o.name, o.path⟩)⟩ = inFiles := by
    unfold renderSet
    simp only [List.map_map, List.map_nil, List.nil_append, List.append_nil,
      if_neg (Bool.false_ne_true), List.append_assoc]
    have hcomp : ((fun (e : Case4Entry) => e.originalFile) ∘
        (fun (o : Stat) => (⟨o.name, o.path⟩ : Case4Entry)) ∘ mkStat stat1)
        = fun (p : String) => p := rfl
    rw [hcomp, List.map_id']
  have herr1 : renderErrored render inFiles = false :=
    renderErrored_false_of_ok render hrender
  unfold newMarkdownProcessor
  rw [if_neg (by simp [hcheck]), hdup,
    show filteredOut postsName ([] : List String) = [] from rfl, hdiff1]
  dsimp only
  rw [if_neg (by simp)]
  rw [hrs1, herr1]
  rw [if_neg (by simp)]
  simp [reuseFold]

theorem filterMap_eq_map_of_forall {α β : Type} {f : α → Option β}
    {g : α → β} {l : List α} (h : ∀ a ∈ l, f a = some (g a)) :
    l.filterMap f = l.map g := by
  induction l with
  | nil => rfl
  | cons a rest ih =>
    rw [List.filterMap_cons, h a (List.mem_cons_self _ _), List.map_cons]
    rw [ih (fun b hb => h b (List.mem_cons_of_mem _ hb))]

theorem run2_all_case1 (postsName outDir : String)
    (stat2 parseDate : String → Int)
    (render : String → Except String (Option Content))
    (readContent : String → Content) (rmOk : String → Bool)
    (inFiles : List String)
    (hres : ∀ p ∈ inFiles, (getNameOptional p).isSome)
    (hnd : (inFiles.filterMap getNameOptional).Nodup)
    (hnp : ∀ p ∈ inFiles, ∀ n, getNameOptional p = some n → n ≠ postsName)
    (hrender : ∀ p ∈ inFiles, ∃ c, render p = Except.ok (some c))
    (hstat : ∀ p ∈ inFiles, ∀ n, getNameOptional p = some n →
      stat2 p < stat2 (outPath outDir n))
    (hread : ∀ p ∈ inFiles, ∀ c, render p = Except.ok (some c) →
      readContent (outPath outDir ((getNameOptional p).getD "")) = c) :
    newMarkdownProcessor false postsName stat2 render readContent rmOk
        parseDate inFiles
        (inFiles.map (fun p => outPath outDir ((getNameOptional p).getD "")))
        outDir
      = ([Effect.writeIndex (outPath outDir postsName)
          (postsSort parseDate
            (generatePostsjson (renderResults render inFiles)))],
        BuildStatus.ok) := by
  have hcheck := checkFilenamesRegex_nil_of_resolvable hres
  have hdup := checkDuplicates_none_of_nodup hres hnd
  have hgram : ∀ p ∈ inFiles,
      postNameRegexTest ((getNameOptional p).getD "") = true := by
    intro p hp
    obtain ⟨n, hn⟩ := Option.isSome_iff_exists.mp (hres p hp)
    rw [hn]
    exact getNameOptional_grammar hn
  have hresolve2 : ∀ p ∈ inFiles,
      getNameOptional (outPath outDir ((getNameOptional p).getD ""))
        = some ((getNameOptional p).getD "") :=
    fun p hp => getNameOptional_outPath outDir _ (hgram p hp)
  have hfo2 : filteredOut postsName
      (inFiles.map (fun p => outPath outDir ((getNameOptional p).getD "")))
      = inFiles.map (fun p => outPath outDir ((getNameOptional p).getD "")) := by
    unfold filteredOut
    rw [List.filter_eq_self]
    intro f hf
    rw [List.mem_map] at hf
    obtain ⟨p, hp, rfl⟩ := hf
    obtain ⟨n, hn⟩ := Option.isSome_iff_exists.mp (hres p hp)
    simp only [parseName_outPath outDir _ (hgram p hp)]
    rw [hn]
    simp [hnp p hp n hn]
  have hB2 : ∀ f ∈ inFiles.map
      (fun p => outPath outDir ((getNameOptional p).getD "")),
      (getNameOptional f).isSome := by
    intro f hf
    rw [List.mem_map] at hf
    obtain ⟨p, hp, rfl⟩ := hf
    rw [hresolve2 p hp]
    rfl
  have hfm2 : (inFiles.map
      (fun p => outPath outDir ((getNameOptional p).getD ""))).filterMap
        getNameOptional = inFiles.filterMap getNameOptional := by
    rw [List.filterMap_map]
    rw [filterMap_eq_map_of_forall (g := fun p => (getNameOptional p).getD "")
      (fun p hp =>
        show (getNameOptional ∘ fun q => outPath outDir ((getNameOptional q).getD "")) p
            = some ((getNameOptional p).getD "") from hresolve2 p hp)]
    exact (filterMap_eq_map_of_isSome hres).symm
  have hD := diff_eq_diffLoop stat2
    (inFiles.map (fun p => outPath outDir ((getNameOptional p).getD "")))
    inFiles hB2 hres (by rw [hfm2]; exact hnd) hnd
  rw [List.map_map] at hD
  have hzip := diffLoop_zipped
    (mkStat stat2 ∘ (fun p => outPath outDir ((getNameOptional p).getD "")))
    (mkStat stat2) inFiles
    (by
      intro p hp
      show (getNameOptional (outPath outDir ((getNameOptional p).getD ""))).getD ""
        = (getNameOptional p).getD ""
      rw [hresolve2 p hp]
      rfl)
    (by
      intro p hp
      obtain ⟨n, hn⟩ := Option.isSome_iff_exists.mp (hres p hp)
      show stat2 (outPath outDir ((getNameOptional p).getD "")) > stat2 p
      rw [hn]
      exact hstat p hp n hn)
    (by
      have heq : (inFiles.map (fun p =>
          ((mkStat stat2 ∘ (fun p => outPath outDir ((getNameOptional p).getD ""))) p).name))
          = inFiles.filterMap getNameOptional := by
        rw [show (fun p => ((mkStat stat2 ∘
            (fun p => outPath outDir ((getNameOptional p).getD ""))) p).name)
            = (fun p => (getNameOptional (outPath outDir
              ((getNameOptional p).getD ""))).getD "") from rfl]
        rw [List.map_congr_left (fun p hp => by rw [hresolve2 p hp])]
        exact (filterMap_eq_map_of_isSome hres).symm
      rw [heq]
      exact hnd)
  rw [hzip] at hD
  have hpairs : (inFiles.map (fun p =>
      (⟨((mkStat stat2 ∘ (fun p => outPath outDir ((getNameOptional p).getD ""))) p).name,
        ((mkStat stat2 ∘ (fun p => outPath outDir ((getNameOptional p).getD ""))) p).path,
        (mkStat stat2 p).path⟩ : DiffEntry)))
      = inFiles.map (fun p =>
        (⟨(getNameOptional p).getD "",
          outPath outDir ((getNameOptional p).getD ""), p⟩ : DiffEntry)) := by
    refine List.map_congr_left ?_
    intro p hp
    show (⟨(getNameOptional (outPath outDir ((getNameOptional p).getD ""))).getD "",
      outPath outDir ((getNameOptional p).getD ""), p⟩ : DiffEntry) = _
    rw [hresolve2 p hp]
    rfl
  rw [hpairs] at hD
  unfold newMarkdownProcessor
  rw [if_neg (by simp [hcheck]), hdup, hfo2, hD]
  dsimp only
  rw [if_neg (by simp)]
  rw [show renderSet false ⟨inFiles.map (fun p =>
      (⟨(getNameOptional p).getD "",
        outPath outDir ((getNameOptional p).getD ""), p⟩ : DiffEntry)),
      [], [], []⟩ = [] from rfl]
  rw [show renderErrored render [] = false from rfl]
  rw [if_neg (by simp)]
  rw [if_neg (show ¬(false = true) by simp)]
  rw [reuse_matches_renders render readContent outDir inFiles hrender hread]
  simp [renderResults, generatePostsjson]

/-- **C9 counterexample.** A draft source (`render` returns `null`)
produces no per-post output file, so the second run — sources, mtimes
and output directory unchanged (only the aggregate index file exists) —
classifies the source as Case 4 again and dispatches it to the renderer:
the second run performs one render, not zero. -/
theorem c9_draft_rerender_counterexample :
    (newMarkdownProcessor false "posts" (fun _ => 0)
        (fun _ => Except.ok none) (fun _ => ⟨"a", "d", "m", "b", false⟩)
        (fun _ => true) (fun _ => 0) ["in/a.md"] [] "out").2
      = BuildStatus.ok ∧
    (newMarkdownProcessor false "posts" (fun _ => 0)
        (fun _ => Except.ok none) (fun _ => ⟨"a", "d", "m", "b", false⟩)
        (fun _ => true) (fun _ => 0) ["in/a.md"] ["out/posts.json"] "out").2
      = BuildStatus.ok ∧
    Effect.render "in/a.md" ∈
      (newMarkdownProcessor false "posts" (fun _ => 0)
        (fun _ => Except.ok none) (fun _ => ⟨"a", "d", "m", "b", false⟩)
        (fun _ => true) (fun _ => 0) ["in/a.md"] ["out/posts.json"] "out").1 :=
  ⟨rfl, rfl, List.mem_cons_self _ _⟩

/-- **C9 (amended).** Running the build twice with no source changes and
`force` unset — starting from an empty output directory, with every
source rendering to a publishable (non-`null`) record, no identity equal
to the index name, every written output's mtime *strictly* newer than
its source's, and reads returning what run one wrote — the second run
succeeds with zero renders (every identity classifies as Case 1) and
writes an aggregate index whose contents equal the first run's. -/
theorem c9_second_run_reuses_all (postsName outDir : String)
    (stat1 stat2 parseDate : String → Int)
    (render : String → Except String (Option Content))
    (readContent : String → Content) (rmOk : String → Bool)
    (inFiles : List String)
    (hres : ∀ p ∈ inFiles, (getNameOptional p).isSome)
    (hnd : (inFiles.filterMap getNameOptional).Nodup)
    (hnp : ∀ p ∈ inFiles, ∀ n, getNameOptional p = some n → n ≠ postsName)
    (hrender : ∀ p ∈ inFiles, ∃ c, render p = Except.ok (some c))
    (hstat : ∀ p ∈ inFiles, ∀ n, getNameOptional p = some n →
      stat2 p < stat2 (outPath outDir n))
    (hread : ∀ p ∈ inFiles, ∀ c, render p = Except.ok (some c) →
      readContent (outPath outDir ((getNameOptional p).getD "")) = c) :
    (newMarkdownProcessor false postsName stat1 render readContent rmOk
        parseDate inFiles [] outDir).2 = BuildStatus.ok ∧
    (newMarkdownProcessor false postsName stat2 render readContent rmOk
        parseDate inFiles
        (inFiles.map (fun p => outPath outDir ((getNameOptional p).getD "")))
        outDir).2 = BuildStatus.ok ∧
    (∀ p, Effect.render p ∉
      (newMarkdownProcessor false postsName stat2 render readContent rmOk
        parseDate inFiles
        (inFiles.map (fun p => outPath outDir ((getNameOptional p).getD "")))
        outDir).1) ∧
    (∀ pth idx, Effect.writeIndex pth idx ∈
        (newMarkdownProcessor false postsName stat2 render readContent rmOk
          parseDate inFiles
          (inFiles.map (fun p => outPath outDir ((getNameOptional p).getD "")))
          outDir).1 ↔
      Effect.writeIndex pth idx ∈
        (newMarkdownProcessor false postsName stat1 render readContent rmOk
          parseDate inFiles [] outDir).1) := by
  have h1 := run1_from_empty postsName outDir stat1 parseDate render
    readContent rmOk inFiles hres hnd hrender
  have h2 := run2_all_case1 postsName outDir stat2 parseDate render
    readContent rmOk inFiles hres hnd hnp hrender hstat hread
  rw [h1, h2]
  refine ⟨rfl, rfl, ?_, ?_⟩
  · intro p hmem
    rw [List.mem_singleton] at hmem
    cases hmem
  · intro pth idx
    constructor
    · intro hm
      rw [List.mem_singleton] at hm
      rw [hm]
      exact List.mem_append.mpr (Or.inr (List.mem_singleton.mpr rfl))
    · intro hm
      rcases List.mem_append.mp hm with hm | hm
      · rcases List.mem_append.mp hm with hm | hm
        · rw [List.mem_map] at hm
          obtain ⟨q, _, hq⟩ := hm
          exact absurd hq (by intro hc; cases hc)
        · rw [List.mem_map] at hm
          obtain ⟨c, _, hc⟩ := hm
          exact absurd hc (by intro hc2; cases hc2)
      · rw [List.mem_singleton] at hm
        rw [hm]
        exact List.mem_singleton.mpr rfl

/-- Witness for the amended C9 at a concrete one-post project. -/
theorem c9_second_run_reuses_all_witness :
    (newMarkdownProcessor false "posts" (fun _ => 0)
        (fun _ => Except.ok (some ⟨"a", "2024", "m", "html", false⟩))
        (fun _ => ⟨"a", "2024", "m", "html", false⟩) (fun _ => true)
        (fun _ => 0) ["in/a.md"] [] "out").2 = BuildStatus.ok ∧
    (newMarkdownProcessor false "posts"
        (fun p => if p = "in/a.md" then 0 else 1)
        (fun _ => Except.ok (some ⟨"a", "2024", "m", "html", false⟩))
        (fun _ => ⟨"a", "2024", "m", "html", false⟩) (fun _ => true)
        (fun _ => 0) ["in/a.md"]
        (["in/a.md"].map (fun p => outPath "out" ((getNameOptional p).getD "")))
        "out").2 = BuildStatus.ok ∧
    (∀ p, Effect.render p ∉
      (newMarkdownProcessor false "posts"
        (fun p => if p = "in/a.md" then 0 else 1)
        (fun _ => Except.ok (some ⟨"a", "2024", "m", "html", false⟩))
        (fun _ => ⟨"a", "2024", "m", "html", false⟩) (fun _ => true)
        (fun _ => 0) ["in/a.md"]
        (["in/a.md"].map (fun p => outPath "out" ((getNameOptional p).getD "")))
        "out").1) ∧
    (∀ pth idx, Effect.writeIndex pth idx ∈
        (newMarkdownProcessor false "posts"
          (fun p => if p = "in/a.md" then 0 else 1)
          (fun _ => Except.ok (some ⟨"a", "2024", "m", "html", false⟩))
          (fun _ => ⟨"a", "2024", "m", "html", false⟩) (fun _ => true)
          (fun _ => 0) ["in/a.md"]
          (["in/a.md"].map (fun p => outPath "out" ((getNameOptional p).getD "")))
          "out").1 ↔
      Effect.writeIndex pth idx ∈
        (newMarkdownProcessor false "posts" (fun _ => 0)
          (fun _ => Except.ok (some ⟨"a", "2024", "m", "html", false⟩))
          (fun _ => ⟨"a", "2024", "m", "html", false⟩) (fun _ => true)
          (fun _ => 0) ["in/a.md"] [] "out").1) :=
  c9_second_run_reuses_all "posts" "out" (fun _ => 0)
    (fun p => if p = "in/a.md" then 0 else 1) (fun _ => 0)
    (fun _ => Except.ok (some ⟨"a", "2024", "m", "html", false⟩))
    (fun _ => ⟨"a", "2024", "m", "html", false⟩) (fun _ => true)
    ["in/a.md"]
    (by decide) (by decide)
    (by
      intro p hp n hn
      rw [List.mem_singleton] at hp
      subst hp
      have ha : some "a" = some n := hn
      injection ha with ha2
      subst ha2
      decide)
    (fun p _ => ⟨⟨"a", "2024", "m", "html", false⟩, rfl⟩)
    (by
      intro p hp n hn
      rw [List.mem_singleton] at hp
      subst hp
      have ha : some "a" = some n := hn
      injection ha with ha2
      subst ha2
      decide)
    (by
      intro p hp c hc
      injection hc with h
      injection h with h2)

end MarkdownProcessor
